import Mathlib

/-!
A shallow embedding of `simhash.go` (package `main` of the simhash repository)

The development follows the Go source file `simhash.go`:

* Go `string` values are byte sequences (`GoString`); `len` is the byte
  length and `text[i:j]` a byte slice, `range` decodes UTF-8.
* Go `int` is the 64-bit two's-complement integer; additions and
  subtractions on accumulators wrap around (`wrapInt`).
* Go `uint64` values are natural numbers below `2 ^ 64`.
* A `map[string]int` is an association list; the iteration order of a Go
  map is unspecified, so results that range over a map are stated up to
  permutation.
* The functions of the standard library used by the file (`crypto/md5`,
  `unicode`, `unicode/utf8`, `strings`, `slices`, `math/bits`,
  `encoding/binary`) are modelled after their documentation.
-/

set_option maxRecDepth 100000

namespace Simhash

/-! ## Strings and machine integers -/

/-- A Go `string`: an immutable sequence of bytes. -/
abbrev GoString := List UInt8

/-- The value `len(s)` of a Go string, an `int`. -/
def len (s : GoString) : Int := (s.length : Int)

/-- Two's-complement wrap-around of a mathematical integer into the range of
a 64-bit Go `int`. -/
def wrapInt (x : Int) : Int := (x + 2 ^ 63) % 2 ^ 64 - 2 ^ 63

/-- Wrap-around of a natural number into the range of `uint64`. -/
def wrapUint64 (x : Nat) : Nat := x % 2 ^ 64

/-- The constant `fingerPrintSize` of `simhash.go`. -/
def fingerPrintSize : Nat := 64

/-! ## `crypto/md5` (RFC 1321) -/

/-- Per-round left-rotation amounts of MD5. -/
def md5Shift : List Nat :=
  [7, 12, 17, 22, 7, 12, 17, 22, 7, 12, 17, 22, 7, 12, 17, 22,
   5, 9, 14, 20, 5, 9, 14, 20, 5, 9, 14, 20, 5, 9, 14, 20,
   4, 11, 16, 23, 4, 11, 16, 23, 4, 11, 16, 23, 4, 11, 16, 23,
   6, 10, 15, 21, 6, 10, 15, 21, 6, 10, 15, 21, 6, 10, 15, 21]

/-- The sine table of MD5: entry `i` is `floor (2 ^ 32 * |sin (i + 1)|)`. -/
def md5Sine : List Nat :=
  [0xd76aa478, 0xe8c7b756, 0x242070db, 0xc1bdceee, 0xf57c0faf, 0x4787c62a, 0xa8304613, 0xfd469501,
   0x698098d8, 0x8b44f7af, 0xffff5bb1, 0x895cd7be, 0x6b901122, 0xfd987193, 0xa679438e, 0x49b40821,
   0xf61e2562, 0xc040b340, 0x265e5a51, 0xe9b6c7aa, 0xd62f105d, 0x02441453, 0xd8a1e681, 0xe7d3fbc8,
   0x21e1cde6, 0xc33707d6, 0xf4d50d87, 0x455a14ed, 0xa9e3e905, 0xfcefa3f8, 0x676f02d9, 0x8d2a4c8a,
   0xfffa3942, 0x8771f681, 0x6d9d6122, 0xfde5380c, 0xa4beea44, 0x4bdecfa9, 0xf6bb4b60, 0xbebfbc70,
   0x289b7ec6, 0xeaa127fa, 0xd4ef3085, 0x04881d05, 0xd9d4d039, 0xe6db99e5, 0x1fa27cf8, 0xc4ac5665,
   0xf4292244, 0x432aff97, 0xab9423a7, 0xfc93a039, 0x655b59c3, 0x8f0ccc92, 0xffeff47d, 0x85845dd1,
   0x6fa87e4f, 0xfe2ce6e0, 0xa3014314, 0x4e0811a1, 0xf7537e82, 0xbd3af235, 0x2ad7d2bb, 0xeb86d391]

/-- Left rotation of a 32-bit word by `c` positions. -/
def rotl32 (x c : Nat) : Nat :=
  ((x <<< c) ||| (x >>> (32 - c))) % 2 ^ 32

/-- Bitwise complement of a 32-bit word. -/
def not32 (x : Nat) : Nat := 0xffffffff ^^^ (x % 2 ^ 32)

/-- The `n` low-order bytes of `x`, least significant first. -/
def leBytes : Nat → Nat → List Nat
  | 0, _ => []
  | n + 1, x => x % 256 :: leBytes n (x / 256)

/-- The number read from a little-endian byte sequence. -/
def leValue : List Nat → Nat
  | [] => 0
  | b :: bs => b + 256 * leValue bs

/-- The number read from a big-endian byte sequence. -/
def beValue (bs : List Nat) : Nat :=
  bs.foldl (fun acc b => acc * 256 + b) 0

/-- MD5 padding: the message bytes, one `0x80` byte, zero bytes up to
56 modulo 64, and the bit length as a 64-bit little-endian number. -/
def md5Pad (msg : GoString) : List Nat :=
  let n := msg.length
  msg.map UInt8.toNat ++ [0x80] ++ List.replicate ((119 - n % 64) % 64) 0
    ++ leBytes 8 ((8 * n) % 2 ^ 64)

/-- The sixteen little-endian 32-bit words of a 64-byte block. -/
def md5Words (block : List Nat) : List Nat :=
  (List.range 16).map (fun j => leValue ((block.drop (4 * j)).take 4))

/-- The four chaining words of MD5. -/
structure md5State where
  a : Nat
  b : Nat
  c : Nat
  d : Nat
deriving DecidableEq, Repr

/-- The initial chaining value of MD5. -/
def md5Init : md5State :=
  { a := 0x67452301, b := 0xefcdab89, c := 0x98badcfe, d := 0x10325476 }

/-- One of the 64 operations of the MD5 compression function. -/
def md5Round (m : List Nat) (s : md5State) (i : Nat) : md5State :=
  let fg : Nat × Nat :=
    if i < 16 then ((s.b &&& s.c) ||| (not32 s.b &&& s.d), i)
    else if i < 32 then ((s.d &&& s.b) ||| (not32 s.d &&& s.c), (5 * i + 1) % 16)
    else if i < 48 then (s.b ^^^ s.c ^^^ s.d, (3 * i + 5) % 16)
    else (s.c ^^^ (s.b ||| not32 s.d), (7 * i) % 16)
  let f := (fg.1 + s.a + md5Sine.getD i 0 + m.getD fg.2 0) % 2 ^ 32
  { a := s.d, d := s.c, c := s.b, b := (s.b + rotl32 f (md5Shift.getD i 0)) % 2 ^ 32 }

/-- The MD5 compression function on one 64-byte block. -/
def md5Block (s : md5State) (block : List Nat) : md5State :=
  let m := md5Words block
  let t := (List.range 64).foldl (md5Round m) s
  { a := (s.a + t.a) % 2 ^ 32, b := (s.b + t.b) % 2 ^ 32,
    c := (s.c + t.c) % 2 ^ 32, d := (s.d + t.d) % 2 ^ 32 }

/-- Compression of the first `n` 64-byte blocks of `bytes`. -/
def md5Blocks : Nat → md5State → List Nat → md5State
  | 0, s, _ => s
  | n + 1, s, bytes => md5Blocks n (md5Block s (bytes.take 64)) (bytes.drop 64)

/-- The 16-byte MD5 digest of a byte string (`md5.New`, `Write`, `Sum(nil)`). -/
def md5Sum (msg : GoString) : List Nat :=
  let p := md5Pad msg
  let s := md5Blocks (p.length / 64) md5Init p
  leBytes 4 s.a ++ leBytes 4 s.b ++ leBytes 4 s.c ++ leBytes 4 s.d

/-! ## Features and their hash -/

/-- The struct `feature` of `simhash.go`. -/
structure feature where
  value : GoString
  weight : Int
deriving DecidableEq, Repr

/-- The method `(*feature).hash`: the first eight bytes of the MD5 digest of
the value, read as a big-endian `uint64`. -/
def feature.hash (f : feature) : Nat :=
  beValue ((md5Sum f.value).take 8)

/-! ## `unicode/utf8` -/

/-- The rune `utf8.RuneError` (U+FFFD). -/
def RuneError : Nat := 0xFFFD

/-- Whether `b` lies in the byte range `lo ..= hi`. -/
def inRange (b : UInt8) (lo hi : Nat) : Bool :=
  decide (lo ≤ b.toNat) && decide (b.toNat ≤ hi)

/-- The payload (low six bits) of a continuation byte. -/
def contBits (b : UInt8) : Nat := b.toNat &&& 0x3F

/-- The function `utf8.DecodeRuneInString`: the first rune of `s` and its width in
bytes. An invalid or incomplete encoding yields `(RuneError, 1)`, the empty
string `(RuneError, 0)`. -/
def DecodeRuneInString : GoString → Nat × Nat
  | [] => (RuneError, 0)
  | b0 :: rest =>
    let x := b0.toNat
    if x < 0x80 then (x, 1)
    else if x < 0xC2 then (RuneError, 1)
    else if x < 0xE0 then
      match rest with
      | b1 :: _ =>
        if inRange b1 0x80 0xBF then (((x &&& 0x1F) <<< 6) ||| contBits b1, 2)
        else (RuneError, 1)
      | _ => (RuneError, 1)
    else if x < 0xF0 then
      match rest with
      | b1 :: b2 :: _ =>
        if inRange b1 (if x = 0xE0 then 0xA0 else 0x80) (if x = 0xED then 0x9F else 0xBF)
            && inRange b2 0x80 0xBF then
          (((x &&& 0x0F) <<< 12) ||| (contBits b1 <<< 6) ||| contBits b2, 3)
        else (RuneError, 1)
      | _ => (RuneError, 1)
    else if x < 0xF5 then
      match rest with
      | b1 :: b2 :: b3 :: _ =>
        if inRange b1 (if x = 0xF0 then 0x90 else 0x80) (if x = 0xF4 then 0x8F else 0xBF)
            && inRange b2 0x80 0xBF && inRange b3 0x80 0xBF then
          (((x &&& 0x07) <<< 18) ||| (contBits b1 <<< 12) ||| (contBits b2 <<< 6)
            ||| contBits b3, 4)
        else (RuneError, 1)
      | _ => (RuneError, 1)
    else (RuneError, 1)

/-- The runes visited by `for _, r := range s`, with `fuel` bounding the number
of iterations; every iteration consumes at least one byte. -/
def runesAux : Nat → GoString → List Nat
  | 0, _ => []
  | fuel + 1, s =>
    match s with
    | [] => []
    | _ :: _ =>
      let d := DecodeRuneInString s
      d.1 :: runesAux fuel (s.drop d.2)

/-- The runes visited by `for _, r := range s`. -/
def runes (s : GoString) : List Nat := runesAux s.length s

/-- The function `utf8.AppendRune` on an empty buffer: the UTF-8 encoding of
`r`; surrogates and values above U+10FFFF are encoded as `RuneError`. -/
def encodeRune (r : Nat) : GoString :=
  if r ≤ 0x7F then [UInt8.ofNat r]
  else if r ≤ 0x7FF then
    [UInt8.ofNat (0xC0 ||| (r >>> 6)), UInt8.ofNat (0x80 ||| (r &&& 0x3F))]
  else if 0x10FFFF < r ∨ (0xD800 ≤ r ∧ r ≤ 0xDFFF) then [0xEF, 0xBF, 0xBD]
  else if r ≤ 0xFFFF then
    [UInt8.ofNat (0xE0 ||| (r >>> 12)), UInt8.ofNat (0x80 ||| ((r >>> 6) &&& 0x3F)),
     UInt8.ofNat (0x80 ||| (r &&& 0x3F))]
  else
    [UInt8.ofNat (0xF0 ||| (r >>> 18)), UInt8.ofNat (0x80 ||| ((r >>> 12) &&& 0x3F)),
     UInt8.ofNat (0x80 ||| ((r >>> 6) &&& 0x3F)), UInt8.ofNat (0x80 ||| (r &&& 0x3F))]

/-- The Go string written as the given text: the UTF-8 encoding of its
characters. -/
def str (s : String) : GoString :=
  s.toList.flatMap (fun c => encodeRune c.toNat)

/-! ## `unicode` and `strings` -/

/-- The tables of package `unicode` above the Latin-1 range, which depend on
the Unicode version of the Go release: membership in the range tables
`unicode.Letter` and `unicode.Number` for code points above U+00FF, and the
lower-case mapping of `unicode.CaseRanges` for code points above U+007F. -/
structure UnicodeTables where
  Letter : Nat → Bool
  Number : Nat → Bool
  Lower : Nat → Nat

/-- Tables without any entry: they agree with those of every Unicode version on
text whose code points all lie in the ASCII range. -/
def asciiTables : UnicodeTables :=
  { Letter := fun _ => false, Number := fun _ => false, Lower := fun r => r }

/-- The function `unicode.IsLetter`: category L. Code points up to `MaxLatin1`
are answered from the fixed Latin-1 property table. -/
def IsLetter (T : UnicodeTables) (r : Nat) : Bool :=
  if r ≤ 0xFF then
    (decide (0x41 ≤ r) && decide (r ≤ 0x5A)) || (decide (0x61 ≤ r) && decide (r ≤ 0x7A))
      || decide (r = 0xAA) || decide (r = 0xB5) || decide (r = 0xBA)
      || (decide (0xC0 ≤ r) && decide (r ≤ 0xD6)) || (decide (0xD8 ≤ r) && decide (r ≤ 0xF6))
      || decide (0xF8 ≤ r)
  else T.Letter r

/-- The function `unicode.IsNumber`: category N. Code points up to `MaxLatin1`
are answered from the fixed Latin-1 property table. -/
def IsNumber (T : UnicodeTables) (r : Nat) : Bool :=
  if r ≤ 0xFF then
    (decide (0x30 ≤ r) && decide (r ≤ 0x39)) || decide (r = 0xB2) || decide (r = 0xB3)
      || decide (r = 0xB9) || (decide (0xBC ≤ r) && decide (r ≤ 0xBE))
  else T.Number r

/-- The function `unicode.ToLower`: ASCII is mapped arithmetically, everything
else through the case tables. -/
def ToLowerRune (T : UnicodeTables) (r : Nat) : Nat :=
  if r ≤ 0x7F then
    if 0x41 ≤ r ∧ r ≤ 0x5A then r + (0x61 - 0x41) else r
  else T.Lower r

/-- The function `strings.ToLower`: every rune of `s` mapped by `unicode.ToLower`
and encoded again (its ASCII fast path computes the same string). -/
def ToLower (T : UnicodeTables) (s : GoString) : GoString :=
  (runes s).flatMap (fun r => encodeRune (ToLowerRune T r))

/-- The function `slices.Contains` on strings. -/
def Contains (xs : List GoString) (x : GoString) : Bool := decide (x ∈ xs)

/-- The slice expression `s[lo:hi]`; `none` stands for the run-time panic
raised when the bounds are out of range. -/
def slice (s : GoString) (lo hi : Int) : Option GoString :=
  if 0 ≤ lo ∧ lo ≤ hi ∧ hi ≤ len s then
    some ((s.drop lo.toNat).take (hi.toNat - lo.toNat))
  else none

/-! ## `map[string]int` -/

/-- A Go `map[string]int`: an association list with pairwise distinct keys, in
order of first insertion. -/
abbrev GoMap := List (GoString × Int)

/-- The statement `m[k]++`: a missing key counts as zero. The counters of
`simhash.go` count tokens or positions of the text, so they never exceed
`len(text)` and the increment cannot wrap around. -/
def GoMap.incr : GoMap → GoString → GoMap
  | [], k => [(k, 1)]
  | (k', c) :: m, k => if k' = k then (k', c + 1) :: m else (k', c) :: GoMap.incr m k

/-- The loop `for k, count := range m` that appends `feature{k, count}`: one
feature per key. Go leaves the iteration order unspecified; this is the
order of first insertion. -/
def mapFeatures (m : GoMap) : List feature :=
  m.map (fun kc => { value := kc.1, weight := kc.2 })

/-! ## `simhash.go` -/

/-- The struct `simHash` of `simhash.go`: the configuration. -/
structure simHash where
  stopWords : List GoString
  minTokenLength : Int
  useNgram : Bool
  ngramWidth : Int
deriving DecidableEq, Repr

/-- The type `Option` of `simhash.go` (`func(*simHash)`): a function value, not
nil, that updates the configuration. -/
abbrev SimOption := simHash → simHash

/-- The option `WithStopWords`. -/
def WithStopWords (words : List GoString) : SimOption :=
  fun s => { s with stopWords := words }

/-- The option `WithMinTokenLength`. -/
def WithMinTokenLength (length : Int) : SimOption :=
  fun s => { s with minTokenLength := length }

/-- The option `WithNgram`. -/
def WithNgram (width : Int) : SimOption :=
  fun s => { s with useNgram := true, ngramWidth := width }

/-- The body of the loop of `tokenize` for one rune `r`, on the pair of the
tokens found so far and the builder `current`. -/
def tokenizeStep (T : UnicodeTables) (st : List GoString × GoString) (r : Nat) :
    List GoString × GoString :=
  if IsLetter T r || IsNumber T r then (st.1, st.2 ++ encodeRune r)
  else if st.2.length > 0 then (st.1 ++ [st.2], [])
  else st

/-- The method `tokenize` (its receiver is not used). -/
def tokenize (T : UnicodeTables) (text : GoString) : List GoString :=
  let st := (runes text).foldl (tokenizeStep T) ([], [])
  if st.2.length > 0 then st.1 ++ [st.2] else st.1

/-- The body of the first loop of `extractTokens` for one token. -/
def countToken (T : UnicodeTables) (s : simHash) (m : GoMap) (token : GoString) : GoMap :=
  let token := ToLower T token
  if !Contains s.stopWords token && decide (len token > s.minTokenLength) then
    m.incr token
  else m

/-- The method `extractTokens`. -/
def extractTokens (T : UnicodeTables) (s : simHash) (text : GoString) : List feature :=
  let tokens := tokenize T text
  let m := tokens.foldl (countToken T s) []
  mapFeatures m

/-- The loop `for i := 0; i <= len(text)-width; i++` of `extractNgrams`, started
at index `i` with map `m`. `none` stands for a slice out of range, or for a
loop that has not ended after `fuel` tests of its condition. -/
def ngramLoop (text : GoString) (width : Int) : Nat → Int → GoMap → Option GoMap
  | 0, _, _ => none
  | fuel + 1, i, m =>
    if i ≤ len text - width then
      match slice text i (i + width) with
      | none => none
      | some ngram => ngramLoop text width fuel (i + 1) (m.incr ngram)
    else some m

/-- The width used by `extractNgrams`: a width that is not positive is replaced
by 4. -/
def effectiveWidth (width : Int) : Int :=
  if width ≤ 0 then 4 else width

/-- The method `extractNgrams`; its loop tests its condition at most
`len(text) + 1` times. -/
def extractNgrams (s : simHash) (text : GoString) : Option (List feature) :=
  let width := effectiveWidth s.ngramWidth
  (ngramLoop text width (text.length + 1) 0 []).map mapFeatures

/-- The method `extractor`. -/
def extractor (T : UnicodeTables) (s : simHash) (text : GoString) : Option (List feature) :=
  if s.useNgram then extractNgrams s text
  else some (extractTokens T s text)

/-- The inner loop of `compute` for one feature: every accumulator `v[i]`
gains the weight when bit `i` of the hash is 1 and loses it otherwise, in
64-bit `int` arithmetic. -/
def voteStep (v : List Int) (f : feature) : List Int :=
  let hash := f.hash
  (List.range fingerPrintSize).foldl
    (fun v i =>
      let bit := (hash >>> i) &&& 1
      if bit = 1 then v.set i (wrapInt (v.getD i 0 + f.weight))
      else v.set i (wrapInt (v.getD i 0 - f.weight)))
    v

/-- The accumulators `v` of `compute` after its first loop. -/
def votes (features : List feature) : List Int :=
  features.foldl voteStep (List.replicate fingerPrintSize 0)

/-- The method `compute` (its receiver is not used). -/
def compute (features : List feature) : Nat :=
  let v := votes features
  (List.range fingerPrintSize).foldl
    (fun sh i => if v.getD i 0 > 0 then sh ||| (1 <<< i) else sh)
    0

/-- The configuration `NewSimHash` starts from. -/
def defaultSimHash : simHash :=
  { stopWords := [], minTokenLength := 2, useNgram := false, ngramWidth := 4 }

/-- The configuration after the options have been applied in order. -/
def applyOptions (opts : List SimOption) : simHash :=
  opts.foldl (fun s opt => opt s) defaultSimHash

/-- The function `NewSimHash`; `none` stands for a run-time panic. -/
def NewSimHash (T : UnicodeTables) (text : GoString) (opts : List SimOption) : Option Nat :=
  let s := applyOptions opts
  (extractor T s text).map compute

/-- The function `bits.OnesCount64` restricted to the `n` low-order bits: the
number of one bits. -/
def onesCount : Nat → Nat → Nat
  | 0, _ => 0
  | n + 1, x => x % 2 + onesCount n (x / 2)

/-- The function `bits.OnesCount64`: the number of one bits of a `uint64`. -/
def OnesCount64 (x : Nat) : Nat := onesCount 64 x

/-- The function `HammingDistance`. -/
def HammingDistance (a b : Nat) : Int :=
  (OnesCount64 (a ^^^ b) : Int)

/-- The function `AreDocumentsSimilar`; `none` stands for a run-time panic. -/
def AreDocumentsSimilar (T : UnicodeTables) (text1 text2 : GoString) (k : Int) : Option Bool :=
  match NewSimHash T text1 [], NewSimHash T text2 [] with
  | some hash1, some hash2 => some (decide (HammingDistance hash1 hash2 ≤ k))
  | _, _ => none

/-! ## Notions used to state the properties -/

/-- The signed contribution of feature `f` to the vote for bit `i`: `+weight`
when bit `i` of its hash is 1, `-weight` when it is 0. -/
def contribution (f : feature) (i : Nat) : Int :=
  if f.hash.testBit i then f.weight else -f.weight

/-- The signed weighted vote for bit `i`: the sum, over all features, of their
contributions, as a mathematical integer. -/
def vote (features : List feature) (i : Nat) : Int :=
  (features.map (fun f => contribution f i)).sum

/-- The sum of the absolute values of the weights. -/
def totalWeight (features : List feature) : Nat :=
  (features.map (fun f => f.weight.natAbs)).sum

/-- The sum of the absolute values of the counters of a map. -/
def mapTotal (m : GoMap) : Nat := (m.map (fun kc => kc.2.natAbs)).sum

/-- Two features of weight `2 ^ 62` with the value `"a"`: every accumulator of
their common hash bits reaches `2 ^ 63`, one more than the largest `int`. -/
def overflowFeatures : List feature :=
  [{ value := str "a", weight := 2 ^ 62 }, { value := str "a", weight := 2 ^ 62 }]

/-- The number of bit positions `0 .. 63` at which `a` and `b` differ. -/
def countDiffering (a b : Nat) : Nat :=
  (List.range 64).countP (fun i => a.testBit i != b.testBit i)

/-- The function `unicode.IsSpace`: the Latin-1 white space, and above Latin-1
the code points of the property `White_Space`. -/
def IsSpace (r : Nat) : Bool :=
  if r ≤ 0xFF then
    (decide (0x09 ≤ r) && decide (r ≤ 0x0D)) || decide (r = 0x20) || decide (r = 0x85)
      || decide (r = 0xA0)
  else
    decide (r = 0x1680) || (decide (0x2000 ≤ r) && decide (r ≤ 0x200A))
      || decide (r = 0x2028) || decide (r = 0x2029) || decide (r = 0x202F)
      || decide (r = 0x205F) || decide (r = 0x3000)

/-- The feature list with every weight multiplied by `c`. -/
def scaleWeights (c : Int) (features : List feature) : List feature :=
  features.map (fun f => { f with weight := c * f.weight })

/-- The sum of the weights. -/
def weightSum (features : List feature) : Int :=
  (features.map (fun f => f.weight)).sum

/-- Whether every byte of the text is an ASCII character. -/
def isASCII (s : GoString) : Bool := s.all (fun b => decide (b.toNat < 0x80))

/-- Two features of weight `2 ^ 62` with the values `"cat"` and `"dog"`. -/
def overflowPair : List feature :=
  [{ value := str "cat", weight := 2 ^ 62 }, { value := str "dog", weight := 2 ^ 62 }]

/-- The index expression `m[k]`: a missing key reads as zero. -/
def GoMap.get : GoMap → GoString → Int
  | [], _ => 0
  | (k', c) :: m, k => if k' = k then c else GoMap.get m k

/-- The keys of a map, in order of first insertion. -/
def GoMap.keys (m : GoMap) : List GoString := m.map (fun kc => kc.1)

/-- The substrings `text[i : i+w]` for the start indices `0 ≤ i ≤ len(text) - w`, in
increasing order of `i`. -/
def shingles (text : GoString) (w : Int) : List GoString :=
  (List.range (len text - w + 1).toNat).map (fun i => (text.drop i).take w.toNat)

/-- The loop of `extractNgrams` with, in place of the map, the record of the
bounds `(i, i + width)` of every slice expression it evaluates. -/
def ngramTrace (text : GoString) (width : Int) : Nat → Int → Option (List (Int × Int))
  | 0, _ => none
  | fuel + 1, i =>
    if i ≤ len text - width then
      (ngramTrace text width fuel (i + 1)).map (fun tr => (i, i + width) :: tr)
    else some []

/-- The lower-cased tokens of the text, in order. -/
def loweredTokens (T : UnicodeTables) (text : GoString) : List GoString :=
  (tokenize T text).map (ToLower T)

/-- The lower-cased tokens that pass the filters of `extractTokens`: not a stop
word, and longer (in bytes, Go `len`) than `minTokenLength`. -/
def survivingTokens (T : UnicodeTables) (s : simHash) (text : GoString) : List GoString :=
  (loweredTokens T text).filter
    (fun t => !Contains s.stopWords t && decide (len t > s.minTokenLength))

/-- The function `utf8.RuneCountInString`: the number of characters of a string. -/
def RuneCountInString (s : GoString) : Nat := (runes s).length

/-- The function `utf8.ValidRune`: a code point that is not a surrogate. -/
def ValidRune (r : Nat) : Bool :=
  decide (r ≤ 0x10FFFF) && !(decide (0xD800 ≤ r) && decide (r ≤ 0xDFFF))

/-- The UTF-8 encoding of a sequence of runes. -/
def encodeRunes (rs : List Nat) : GoString := rs.flatMap encodeRune

/-- Whether a string starts at a rune boundary: it is empty, or its first byte is
no continuation byte. -/
def startsRune (s : GoString) : Bool :=
  match s with
  | [] => true
  | c :: _ => !(inRange c 0x80 0xBF)

/-- The condition under which `tokenize` adds a rune to the current token: the rune is
a letter or a number. -/
def isTokenRune (T : UnicodeTables) (r : Nat) : Bool := IsLetter T r || IsNumber T r

/-- The maximal runs of elements that satisfy `p`: the list is split at every element
that does not satisfy `p`, these elements are dropped, and so are empty
pieces. -/
def maximalRuns (p : Nat → Bool) (rs : List Nat) : List (List Nat) :=
  (rs.splitOnP (fun r => !p r)).filter (fun run => decide (run ≠ []))

/-- The function `unicode.IsDigit`: the decimal digits (category Nd), a part of the
numbers; `digits` lists those above Latin-1. -/
def IsDigit (digits : Nat → Bool) (r : Nat) : Bool :=
  if r ≤ 0xFF then decide (0x30 ≤ r) && decide (r ≤ 0x39) else digits r

/-- The properties of the lower-case mapping that case insensitivity rests on, for the
runes of a text: lower-casing keeps a letter or number a letter or number and a
separator a separator, is idempotent, and yields valid runes. The case tables
of package `unicode` have them for every rune. -/
def caseStable (T : UnicodeTables) (text : GoString) : Bool :=
  (runes text).all (fun r =>
    (isTokenRune T (ToLowerRune T r) == isTokenRune T r)
      && (ToLowerRune T (ToLowerRune T r) == ToLowerRune T r)
      && ValidRune (ToLowerRune T r))

/-! ## Machine arithmetic -/

theorem wrapInt_add_left (a b : Int) : wrapInt (wrapInt a + b) = wrapInt (a + b) := by
  unfold wrapInt; omega

theorem wrapInt_sub_left (a b : Int) : wrapInt (wrapInt a - b) = wrapInt (a - b) := by
  unfold wrapInt; omega

theorem wrapInt_idem (a : Int) : wrapInt (wrapInt a) = wrapInt a := by
  unfold wrapInt; omega

theorem wrapInt_of_bounds (x : Int) (h1 : -2 ^ 63 ≤ x) (h2 : x < 2 ^ 63) : wrapInt x = x := by
  unfold wrapInt; omega

theorem bit_eq_one_iff (h i : Nat) : ((h >>> i) &&& 1 = 1) ↔ h.testBit i = true := by
  rw [Nat.testBit_to_div_mod, Nat.and_one_is_mod, Nat.shiftRight_eq_div_pow]
  simp

/-! ## The accumulators of `compute` -/

theorem getD_set_int (v : List Int) (i j : Nat) (x : Int) :
    (v.set i x).getD j 0 = if i = j ∧ j < v.length then x else v.getD j 0 := by
  simp only [List.getD_eq_getElem?_getD, List.getElem?_set]
  by_cases hij : i = j
  · subst hij
    by_cases hl : i < v.length
    · simp [hl]
    · simp [hl, List.getElem?_eq_none (Nat.le_of_not_lt hl)]
  · simp [hij]

theorem foldl_range_set (g : Nat → Int → Int) (n : Nat) (v : List Int) :
    ((List.range n).foldl (fun v i => v.set i (g i (v.getD i 0))) v).length = v.length ∧
    ∀ j, ((List.range n).foldl (fun v i => v.set i (g i (v.getD i 0))) v).getD j 0 =
      if j < n ∧ j < v.length then g j (v.getD j 0) else v.getD j 0 := by
  induction n with
  | zero => simp
  | succ n ih =>
    obtain ⟨ihl, ihg⟩ := ih
    rw [List.range_succ, List.foldl_append]
    constructor
    · simp only [List.foldl_cons, List.foldl_nil, List.length_set]
      exact ihl
    · intro j
      simp only [List.foldl_cons, List.foldl_nil]
      rw [getD_set_int, ihl, ihg n, ihg j]
      by_cases hj : n = j
      · subst hj
        by_cases hl : n < v.length
        · simp [hl]
        · simp [hl]
      · have h1 : (j < n + 1 ∧ j < v.length) ↔ (j < n ∧ j < v.length) := by omega
        simp only [hj, false_and, if_false, h1]

theorem voteStep_body_eq (h : Nat) (w : Int) :
    (fun (v : List Int) (i : Nat) =>
      if (h >>> i) &&& 1 = 1 then v.set i (wrapInt (v.getD i 0 + w))
      else v.set i (wrapInt (v.getD i 0 - w))) =
    (fun v i => v.set i
      ((fun i x => if h.testBit i then wrapInt (x + w) else wrapInt (x - w)) i (v.getD i 0))) := by
  funext v i
  by_cases hb : h.testBit i = true
  · beta_reduce
    rw [if_pos ((bit_eq_one_iff h i).2 hb), if_pos hb]
  · have hne : ¬ ((h >>> i) &&& 1 = 1) := fun hh => hb ((bit_eq_one_iff h i).1 hh)
    beta_reduce
    rw [if_neg hne, if_neg hb]

theorem voteStep_spec (v : List Int) (f : feature) :
    (voteStep v f).length = v.length ∧
    ∀ j, (voteStep v f).getD j 0 =
      if j < fingerPrintSize ∧ j < v.length then
        (if f.hash.testBit j then wrapInt (v.getD j 0 + f.weight)
         else wrapInt (v.getD j 0 - f.weight))
      else v.getD j 0 := by
  have h := foldl_range_set
    (fun i x => if f.hash.testBit i then wrapInt (x + f.weight) else wrapInt (x - f.weight))
    fingerPrintSize v
  rw [← voteStep_body_eq f.hash f.weight] at h
  exact h

theorem foldl_voteStep_spec (fs : List feature) :
    ∀ v : List Int, v.length = fingerPrintSize →
      (fs.foldl voteStep v).length = fingerPrintSize ∧
      ∀ j, j < fingerPrintSize →
        wrapInt ((fs.foldl voteStep v).getD j 0) = wrapInt (v.getD j 0 + vote fs j) := by
  induction fs with
  | nil => intro v hv; simp [vote, hv]
  | cons f fs ih =>
    intro v hv
    obtain ⟨hl, hg⟩ := voteStep_spec v f
    obtain ⟨ihl, ihg⟩ := ih (voteStep v f) (hl.trans hv)
    refine ⟨by simpa using ihl, ?_⟩
    intro j hj
    rw [List.foldl_cons, ihg j hj, hg j, if_pos ⟨hj, hv ▸ hj⟩]
    have hvote : vote (f :: fs) j = contribution f j + vote fs j := by
      simp [vote]
    rw [hvote]
    unfold contribution
    by_cases hb : f.hash.testBit j = true
    · rw [if_pos hb, if_pos hb, wrapInt_add_left]; congr 1; ring
    · rw [if_neg hb, if_neg hb, wrapInt_add_left]; congr 1; ring

theorem voteStep_wrapped (v : List Int) (f : feature)
    (hv : ∀ j, wrapInt (v.getD j 0) = v.getD j 0) :
    ∀ j, wrapInt ((voteStep v f).getD j 0) = (voteStep v f).getD j 0 := by
  intro j
  rw [(voteStep_spec v f).2 j]
  split
  · split <;> exact wrapInt_idem _
  · exact hv j

theorem foldl_voteStep_wrapped (fs : List feature) :
    ∀ v : List Int, (∀ j, wrapInt (v.getD j 0) = v.getD j 0) →
      ∀ j, wrapInt ((fs.foldl voteStep v).getD j 0) = (fs.foldl voteStep v).getD j 0 := by
  induction fs with
  | nil => intro v hv; simpa using hv
  | cons f fs ih =>
    intro v hv
    rw [List.foldl_cons]
    exact ih _ (voteStep_wrapped v f hv)

theorem getD_replicate_zero (n j : Nat) : (List.replicate n (0 : Int)).getD j 0 = 0 := by
  rw [List.getD_eq_getElem?_getD]
  by_cases h : j < n
  · simp [List.getElem?_replicate, h]
  · simp [List.getElem?_replicate, h]

/-- After the first loop of `compute`, accumulator `j` holds the vote for bit
`j` reduced to the range of `int`. -/
theorem votes_getD (fs : List feature) (j : Nat) (hj : j < fingerPrintSize) :
    (votes fs).getD j 0 = wrapInt (vote fs j) := by
  unfold votes
  have h0 : ∀ j, wrapInt ((List.replicate fingerPrintSize (0 : Int)).getD j 0)
      = (List.replicate fingerPrintSize (0 : Int)).getD j 0 := by
    intro j; rw [getD_replicate_zero]; rfl
  rw [← foldl_voteStep_wrapped fs _ h0 j,
    (foldl_voteStep_spec fs _ (List.length_replicate _ _)).2 j hj, getD_replicate_zero, zero_add]

theorem foldl_setBits_testBit (p : Nat → Prop) [DecidablePred p] (n j : Nat) :
    ((List.range n).foldl (fun sh i => if p i then sh ||| (1 <<< i) else sh) 0).testBit j
      = (decide (j < n) && decide (p j)) := by
  induction n with
  | zero => simp
  | succ n ih =>
    rw [List.range_succ, List.foldl_append, List.foldl_cons, List.foldl_nil]
    by_cases hp : p n
    · rw [if_pos hp, Nat.testBit_or, ih, Nat.one_shiftLeft, Nat.testBit_two_pow]
      by_cases hjn : n = j
      · subst hjn; simp [hp]
      · have h1 : (j < n + 1) ↔ (j < n) := by omega
        simp [hjn, h1]
    · rw [if_neg hp, ih]
      by_cases hjn : n = j
      · subst hjn; simp [hp]
      · have h1 : (j < n + 1) ↔ (j < n) := by omega
        simp [h1]

/-- Bit `j` of the fingerprint is set exactly when `j < 64` and the vote for
bit `j`, reduced to the range of `int`, is positive. -/
theorem compute_testBit (fs : List feature) (j : Nat) :
    (compute fs).testBit j
      = (decide (j < fingerPrintSize) && decide (0 < wrapInt (vote fs j))) := by
  unfold compute
  dsimp only
  have h := foldl_setBits_testBit (fun i => (votes fs).getD i 0 > 0) fingerPrintSize j
  rw [h]
  by_cases hj : j < fingerPrintSize
  · simp only [hj, decide_True, Bool.true_and, votes_getD fs j hj, gt_iff_lt]
  · simp [hj]

theorem vote_abs_le (fs : List feature) (i : Nat) :
    (vote fs i).natAbs ≤ totalWeight fs := by
  induction fs with
  | nil => simp [vote, totalWeight]
  | cons f fs ih =>
    have hv : vote (f :: fs) i = contribution f i + vote fs i := by simp [vote]
    have ht : totalWeight (f :: fs) = f.weight.natAbs + totalWeight fs := by simp [totalWeight]
    have hc : (contribution f i).natAbs = f.weight.natAbs := by
      unfold contribution; split <;> simp
    rw [hv, ht]
    calc (contribution f i + vote fs i).natAbs
        ≤ (contribution f i).natAbs + (vote fs i).natAbs := Int.natAbs_add_le _ _
      _ ≤ f.weight.natAbs + totalWeight fs := by omega

theorem vote_perm {fs gs : List feature} (h : fs.Perm gs) (i : Nat) :
    vote fs i = vote gs i := by
  unfold vote
  exact (h.map _).sum_eq

theorem compute_perm {fs gs : List feature} (h : fs.Perm gs) : compute fs = compute gs := by
  apply Nat.eq_of_testBit_eq
  intro i
  rw [compute_testBit, compute_testBit, vote_perm h]

theorem compute_nil : compute [] = 0 := by
  apply Nat.eq_of_testBit_eq
  intro i
  rw [compute_testBit]
  simp [vote, wrapInt]

/-! ## Population count -/

theorem onesCount_eq_countP (n x : Nat) :
    onesCount n x = (List.range n).countP (fun i => x.testBit i) := by
  induction n generalizing x with
  | zero => rfl
  | succ n ih =>
    rw [onesCount, ih, List.range_succ_eq_map, List.countP_cons, List.countP_map]
    have hf : ((fun i => x.testBit i) ∘ Nat.succ) = (fun i => (x / 2).testBit i) := by
      funext i
      simp [Nat.testBit_succ]
    rw [hf, Nat.testBit_zero]
    have hx : x % 2 = 0 ∨ x % 2 = 1 := by omega
    rcases hx with h | h
    · simp [h]
    · simp [h]; omega

theorem onesCount_le (n x : Nat) : onesCount n x ≤ n := by
  rw [onesCount_eq_countP]
  exact (List.countP_le_length _).trans (by simp)

/-! ## The loop over the runes of a text -/

/-- The function `utf8.DecodeRuneInString` consumes at least one byte of a text that is
not empty, and no more than the text has. -/
theorem DecodeRuneInString_width (b : UInt8) (bs : GoString) :
    1 ≤ (DecodeRuneInString (b :: bs)).2 ∧
    (DecodeRuneInString (b :: bs)).2 ≤ (b :: bs).length := by
  unfold DecodeRuneInString
  dsimp only
  repeat' split
  all_goals simp

/-- One more unit of fuel than the length of the text changes nothing. -/
theorem runesAux_succ (fuel : Nat) :
    ∀ s : GoString, s.length ≤ fuel → runesAux (fuel + 1) s = runesAux fuel s := by
  induction fuel with
  | zero =>
    intro s hs
    cases s with
    | nil => rfl
    | cons b bs => simp at hs
  | succ fuel ih =>
    intro s hs
    cases s with
    | nil => rfl
    | cons b bs =>
      have hw := DecodeRuneInString_width b bs
      have hd : (List.drop (DecodeRuneInString (b :: bs)).2 (b :: bs)).length ≤ fuel := by
        rw [List.length_drop]
        simp only [List.length_cons] at hs hw ⊢
        omega
      show (DecodeRuneInString (b :: bs)).1 :: runesAux (fuel + 1) _
        = (DecodeRuneInString (b :: bs)).1 :: runesAux fuel _
      rw [ih _ hd]

theorem runesAux_of_le (fuel : Nat) (s : GoString) (h : s.length ≤ fuel) :
    runesAux fuel s = runes s := by
  unfold runes
  induction fuel with
  | zero =>
    have : s.length = 0 := by omega
    rw [this]
  | succ fuel ih =>
    by_cases hs : s.length ≤ fuel
    · rw [runesAux_succ fuel s hs]
      exact ih hs
    · have : s.length = fuel + 1 := by omega
      rw [this]

theorem runes_nil : runes [] = [] := rfl

/-- The loop over the runes of a text that is not empty visits its first rune and
then the runes of the rest. -/
theorem runes_cons (b : UInt8) (bs : GoString) :
    runes (b :: bs) = (DecodeRuneInString (b :: bs)).1 ::
      runes (List.drop (DecodeRuneInString (b :: bs)).2 (b :: bs)) := by
  have hw := DecodeRuneInString_width b bs
  have hd : (List.drop (DecodeRuneInString (b :: bs)).2 (b :: bs)).length ≤ bs.length := by
    rw [List.length_drop]
    simp only [List.length_cons] at hw ⊢
    omega
  rw [← runesAux_of_le bs.length _ hd]
  rfl

/-! ## Extraction -/

theorem applyOptions_WithNgram (w : Int) :
    applyOptions [WithNgram w]
      = { stopWords := [], minTokenLength := 2, useNgram := true, ngramWidth := w } := rfl

theorem effectiveWidth_pos (w : Int) : 0 < effectiveWidth w := by
  unfold effectiveWidth; split <;> omega

/-- The loop of `extractNgrams` ends without a slice out of range, given a
positive width, a start index that is not negative and fuel for the
iterations that remain. -/
theorem ngramLoop_some (text : GoString) (width : Int) (hw : 0 < width) :
    ∀ (fuel : Nat) (i : Int) (m : GoMap), 0 ≤ i → 0 < fuel →
      len text - width - i + 1 < fuel → ∃ m', ngramLoop text width fuel i m = some m' := by
  intro fuel
  induction fuel with
  | zero => intro i m _ h0; omega
  | succ fuel ih =>
    intro i m hi _ hf
    unfold ngramLoop
    by_cases hc : i ≤ len text - width
    · rw [if_pos hc]
      have hs : slice text i (i + width)
          = some ((text.drop i.toNat).take ((i + width).toNat - i.toNat)) := by
        unfold slice
        rw [if_pos]
        exact ⟨hi, by omega, by omega⟩
      rw [hs]
      exact ih (i + 1) _ (by omega) (by omega) (by omega)
    · rw [if_neg hc]
      exact ⟨m, rfl⟩

/-- The method `extractNgrams` returns for every configuration and text. -/
theorem extractNgrams_some (s : simHash) (text : GoString) :
    ∃ fs, extractNgrams s text = some fs := by
  unfold extractNgrams
  dsimp only
  obtain ⟨m, hm⟩ := ngramLoop_some text (effectiveWidth s.ngramWidth)
    (effectiveWidth_pos _) (text.length + 1) 0 [] (le_refl _) (by omega)
    (by have := effectiveWidth_pos s.ngramWidth; unfold len; push_cast; omega)
  exact ⟨mapFeatures m, by rw [hm]; rfl⟩

theorem extractNgrams_short (s : simHash) (text : GoString)
    (h : len text < effectiveWidth s.ngramWidth) : extractNgrams s text = some [] := by
  unfold extractNgrams
  dsimp only
  unfold ngramLoop
  rw [if_neg (by omega)]
  rfl

theorem NewSimHash_ngram (T : UnicodeTables) (text : GoString) (w : Int) :
    NewSimHash T text [WithNgram w]
      = (extractNgrams (applyOptions [WithNgram w]) text).map compute := rfl

theorem NewSimHash_ngram_short (T : UnicodeTables) (text : GoString) (w : Int)
    (h : len text < effectiveWidth w) :
    extractNgrams (applyOptions [WithNgram w]) text = some [] ∧
    NewSimHash T text [WithNgram w] = some 0 := by
  have he : extractNgrams (applyOptions [WithNgram w]) text = some [] :=
    extractNgrams_short _ text (by rw [applyOptions_WithNgram]; exact h)
  refine ⟨he, ?_⟩
  rw [NewSimHash_ngram, he, Option.map_some', compute_nil]

theorem NewSimHash_word (T : UnicodeTables) (text : GoString) (opts : List SimOption)
    (hmode : (applyOptions opts).useNgram = false) :
    NewSimHash T text opts = some (compute (extractTokens T (applyOptions opts) text)) := by
  unfold NewSimHash extractor
  dsimp only
  rw [hmode]
  rfl

/-- White space is neither a letter nor a number, provided the tables above
Latin-1 list no white space as a letter or a number. -/
theorem space_is_separator (T : UnicodeTables)
    (hT : ∀ r, 0xFF < r → IsSpace r = true → T.Letter r = false ∧ T.Number r = false)
    (r : Nat) (hr : IsSpace r = true) : (IsLetter T r || IsNumber T r) = false := by
  by_cases h : r ≤ 0xFF
  · unfold IsSpace at hr
    rw [if_pos h] at hr
    unfold IsLetter IsNumber
    rw [if_pos h, if_pos h]
    simp only [Bool.or_eq_true, Bool.and_eq_true, decide_eq_true_eq] at hr
    simp only [Bool.or_eq_false_iff, Bool.and_eq_false_iff, decide_eq_false_iff_not]
    omega
  · obtain ⟨h1, h2⟩ := hT r (by omega) hr
    unfold IsLetter IsNumber
    rw [if_neg h, if_neg h, h1, h2]
    rfl

theorem foldl_tokenizeStep_separators (T : UnicodeTables) (rs : List Nat)
    (h : ∀ r ∈ rs, (IsLetter T r || IsNumber T r) = false) :
    rs.foldl (tokenizeStep T) ([], []) = ([], []) := by
  induction rs with
  | nil => rfl
  | cons r rs ih =>
    have hr := h r (List.mem_cons_self _ _)
    have hstep : tokenizeStep T ([], []) r = ([], []) := by
      unfold tokenizeStep
      rw [hr]
      rfl
    rw [List.foldl_cons, hstep]
    exact ih (fun r' hr' => h r' (List.mem_cons_of_mem _ hr'))

/-- A text without any letter or number has no token. -/
theorem tokenize_separators (T : UnicodeTables) (text : GoString)
    (h : ∀ r ∈ runes text, (IsLetter T r || IsNumber T r) = false) :
    tokenize T text = [] := by
  unfold tokenize
  dsimp only
  rw [foldl_tokenizeStep_separators T _ h]
  rfl

/-- Tokens that are stop words or too short leave the map unchanged. -/
theorem foldl_countToken_filtered (T : UnicodeTables) (s : simHash) (tokens : List GoString)
    (h : ∀ tok ∈ tokens, ToLower T tok ∈ s.stopWords ∨ len (ToLower T tok) ≤ s.minTokenLength)
    (m : GoMap) : tokens.foldl (countToken T s) m = m := by
  induction tokens generalizing m with
  | nil => rfl
  | cons tok tokens ih =>
    have hstep : countToken T s m tok = m := by
      unfold countToken
      dsimp only
      have hc : (!Contains s.stopWords (ToLower T tok)
          && decide (len (ToLower T tok) > s.minTokenLength)) = false := by
        rcases h tok (List.mem_cons_self _ _) with h1 | h2
        · simp [Contains, h1]
        · simp [h2]
      rw [hc]
      rfl
    rw [List.foldl_cons, hstep]
    exact ih (fun t ht => h t (List.mem_cons_of_mem _ ht)) m

/-! ## The weights of extracted features -/

theorem totalWeight_mapFeatures (m : GoMap) : totalWeight (mapFeatures m) = mapTotal m := by
  unfold totalWeight mapFeatures mapTotal
  rw [List.map_map]
  rfl

theorem mapTotal_incr (m : GoMap) (k : GoString) : mapTotal (m.incr k) ≤ mapTotal m + 1 := by
  induction m with
  | nil => simp [GoMap.incr, mapTotal]
  | cons kc m ih =>
    obtain ⟨k', c⟩ := kc
    unfold GoMap.incr
    by_cases hk : k' = k
    · rw [if_pos hk]
      simp only [mapTotal, List.map_cons, List.sum_cons]
      omega
    · rw [if_neg hk]
      simp only [mapTotal, List.map_cons, List.sum_cons] at ih ⊢
      omega

theorem ngramLoop_total (text : GoString) (width : Int) :
    ∀ (fuel : Nat) (i : Int) (m m' : GoMap),
      ngramLoop text width fuel i m = some m' → mapTotal m' + 1 ≤ mapTotal m + fuel := by
  intro fuel
  induction fuel with
  | zero => intro i m m' h; simp [ngramLoop] at h
  | succ fuel ih =>
    intro i m m' h
    unfold ngramLoop at h
    by_cases hc : i ≤ len text - width
    · rw [if_pos hc] at h
      cases hs : slice text i (i + width) with
      | none => rw [hs] at h; cases h
      | some ngram =>
        rw [hs] at h
        have h1 := ih (i + 1) _ m' h
        have h2 := mapTotal_incr m ngram
        omega
    · rw [if_neg hc] at h
      cases h
      omega

theorem foldl_countToken_total (T : UnicodeTables) (s : simHash) (tokens : List GoString) :
    ∀ m : GoMap, mapTotal (tokens.foldl (countToken T s) m) ≤ mapTotal m + tokens.length := by
  induction tokens with
  | nil => intro m; simp
  | cons tok tokens ih =>
    intro m
    rw [List.foldl_cons, List.length_cons]
    have h1 := ih (countToken T s m tok)
    have h2 : mapTotal (countToken T s m tok) ≤ mapTotal m + 1 := by
      unfold countToken
      dsimp only
      split
      · exact mapTotal_incr m _
      · omega
    omega

theorem runesAux_length (fuel : Nat) : ∀ s : GoString, (runesAux fuel s).length ≤ fuel := by
  induction fuel with
  | zero => intro s; simp [runesAux]
  | succ fuel ih =>
    intro s
    cases s with
    | nil => simp [runesAux]
    | cons b bs =>
      unfold runesAux
      simp only [List.length_cons]
      have := ih (List.drop (DecodeRuneInString (b :: bs)).2 (b :: bs))
      omega

theorem encodeRune_ne_nil (r : Nat) : encodeRune r ≠ [] := by
  unfold encodeRune
  split
  · simp
  · split
    · simp
    · split
      · simp
      · split <;> simp

theorem foldl_tokenizeStep_length (T : UnicodeTables) (rs : List Nat) :
    ∀ st : List GoString × GoString,
      (rs.foldl (tokenizeStep T) st).1.length + (if (rs.foldl (tokenizeStep T) st).2 = [] then 0 else 1)
        ≤ st.1.length + (if st.2 = [] then 0 else 1) + rs.length := by
  induction rs with
  | nil => intro st; simp
  | cons r rs ih =>
    intro st
    rw [List.foldl_cons, List.length_cons]
    have h1 := ih (tokenizeStep T st r)
    have h2 : (tokenizeStep T st r).1.length + (if (tokenizeStep T st r).2 = [] then 0 else 1)
        ≤ st.1.length + (if st.2 = [] then 0 else 1) + 1 := by
      unfold tokenizeStep
      split
      · dsimp only
        split <;> split <;> omega
      · split
        · rename_i hlen
          have hne : st.2 ≠ [] := by
            intro h0; rw [h0] at hlen; simp at hlen
          simp [hne]
        · omega
    omega

theorem tokenize_length (T : UnicodeTables) (text : GoString) :
    (tokenize T text).length ≤ text.length := by
  unfold tokenize
  dsimp only
  have h1 := foldl_tokenizeStep_length T (runes text) ([], [])
  have h2 : (runes text).length ≤ text.length := runesAux_length _ _
  simp only [List.length_nil, if_true, zero_add] at h1
  split
  · rename_i hlen
    have hne : ((runes text).foldl (tokenizeStep T) ([], [])).2 ≠ [] := by
      intro h0; rw [h0] at hlen; simp at hlen
    rw [if_neg hne] at h1
    simp only [List.length_append, List.length_cons, List.length_nil]
    omega
  · omega

theorem extractor_totalWeight (T : UnicodeTables) (s : simHash) (text : GoString)
    (fs : List feature) (h : extractor T s text = some fs) : totalWeight fs ≤ text.length := by
  unfold extractor at h
  by_cases hm : s.useNgram = true
  · rw [if_pos hm] at h
    unfold extractNgrams at h
    dsimp only at h
    cases hl : ngramLoop text (effectiveWidth s.ngramWidth) (text.length + 1) 0 [] with
    | none => rw [hl] at h; cases h
    | some m =>
      rw [hl] at h
      cases h
      rw [totalWeight_mapFeatures]
      have := ngramLoop_total text _ _ _ _ _ hl
      simp only [mapTotal, List.map_nil, List.sum_nil] at this ⊢
      omega
  · rw [if_neg hm] at h
    cases h
    unfold extractTokens
    dsimp only
    rw [totalWeight_mapFeatures]
    have h1 := foldl_countToken_total T s (tokenize T text) []
    have h2 := tokenize_length T text
    simp only [mapTotal, List.map_nil, List.sum_nil] at h1 ⊢
    omega

theorem vote_fits (fs : List feature) (h : totalWeight fs < 2 ^ 63) (i : Nat) :
    -2 ^ 63 ≤ vote fs i ∧ vote fs i < 2 ^ 63 := by
  have hb := vote_abs_le fs i
  constructor <;> omega

/-- On every text whose length fits an `int`, the bits of the fingerprint returned by
`NewSimHash` follow the sign of the exact votes of the extracted features. -/
theorem NewSimHash_bit_iff_vote_pos (T : UnicodeTables) (text : GoString)
    (opts : List SimOption) (hlen : text.length < 2 ^ 63) :
    ∃ fs, extractor T (applyOptions opts) text = some fs ∧
      NewSimHash T text opts = some (compute fs) ∧
      ∀ i, i < 64 → ((compute fs).testBit i = true ↔ 0 < vote fs i) := by
  have hex : ∃ fs, extractor T (applyOptions opts) text = some fs := by
    unfold extractor
    split
    · exact extractNgrams_some _ _
    · exact ⟨_, rfl⟩
  obtain ⟨fs, hfs⟩ := hex
  refine ⟨fs, hfs, ?_, ?_⟩
  · unfold NewSimHash
    dsimp only
    rw [hfs]
    rfl
  · intro i hi
    have ht := extractor_totalWeight T _ text fs hfs
    have hv := vote_fits fs (by omega) i
    have hw : wrapInt (vote fs i) = vote fs i := wrapInt_of_bounds _ hv.1 hv.2
    have hi' : i < fingerPrintSize := hi
    rw [compute_testBit, hw]
    simp [hi']

/-! ## The claims -/

/-- Claim C1: for every list of features and every bit position `i < 64`, bit `i`
of `compute features` is set if and only if the signed weighted vote for bit
`i` is strictly positive; a vote of exactly 0 leaves the bit cleared. The
vote is taken as an `int` of the program, that is, within the range of a
64-bit `int`: this holds whenever the absolute values of the weights sum to
less than `2 ^ 63` (`vote_fits`), hence for every list `compute` is called
with, the weights of an extractor being counts of occurrences in the text
that sum to at most its length (`extractor_totalWeight`). -/
theorem compute_bit_iff_vote_pos (features : List feature) (i : Nat) (hi : i < 64)
    (hlo : -2 ^ 63 ≤ vote features i) (hhi : vote features i < 2 ^ 63) :
    ((compute features).testBit i = true ↔ 0 < vote features i) ∧
    (vote features i = 0 → (compute features).testBit i = false) := by
  have hw : wrapInt (vote features i) = vote features i := wrapInt_of_bounds _ hlo hhi
  have ht := compute_testBit features i
  rw [hw] at ht
  have hi' : i < fingerPrintSize := hi
  constructor
  · rw [ht]; simp [hi']
  · intro h0; rw [ht, h0]; simp

/-- Claim C1, an instance: the features `cat` (weight 3) and `dog` (weight 1) at
bit 0. -/
theorem compute_bit_iff_vote_pos_witness :
    (0 : Nat) < 64 ∧
    -2 ^ 63 ≤ vote [{ value := str "cat", weight := 3 }, { value := str "dog", weight := 1 }] 0 ∧
    vote [{ value := str "cat", weight := 3 }, { value := str "dog", weight := 1 }] 0 < 2 ^ 63 ∧
    (((compute [{ value := str "cat", weight := 3 },
        { value := str "dog", weight := 1 }]).testBit 0 = true ↔
      0 < vote [{ value := str "cat", weight := 3 }, { value := str "dog", weight := 1 }] 0) ∧
     (vote [{ value := str "cat", weight := 3 }, { value := str "dog", weight := 1 }] 0 = 0 →
      (compute [{ value := str "cat", weight := 3 },
        { value := str "dog", weight := 1 }]).testBit 0 = false)) :=
  ⟨by decide, by decide, by decide,
    compute_bit_iff_vote_pos _ 0 (by decide) (by decide) (by decide)⟩

/-- A remark on the range of the votes: the accumulators are `int`s, so for two
features `"a"` of weight `2 ^ 62` the accumulator of bit 3 wraps around to
`-2 ^ 63` and the bit is cleared although the mathematical sum is `2 ^ 63`.
No extractor produces such a list: its values are distinct and its weights
sum to at most the length of the text. -/
theorem compute_wraps_beyond_int_range :
    ¬ ((compute overflowFeatures).testBit 3 = true ↔ 0 < vote overflowFeatures 3) := by
  decide

/-- Claim C2: aggregation is order-independent. If `gs` is a permutation of `fs`
then `compute gs = compute fs`; hence when the extractor yields the features
`fs`, every order `gs` in which the feature map may be iterated gives the
fingerprint `NewSimHash` returns. -/
theorem compute_order_independent (fs gs : List feature) (h : gs.Perm fs) :
    compute gs = compute fs ∧
    ∀ (T : UnicodeTables) (text : GoString) (opts : List SimOption),
      extractor T (applyOptions opts) text = some fs →
      NewSimHash T text opts = some (compute gs) := by
  refine ⟨compute_perm h, ?_⟩
  intro T text opts he
  unfold NewSimHash
  dsimp only
  rw [he, Option.map_some', compute_perm h]

/-- Claim C2, an instance: the features `cat` and `dog` in both orders. -/
theorem compute_order_independent_witness :
    List.Perm
      [{ value := str "dog", weight := 1 }, ({ value := str "cat", weight := 3 } : feature)]
      [{ value := str "cat", weight := 3 }, { value := str "dog", weight := 1 }] ∧
    compute [{ value := str "dog", weight := 1 }, { value := str "cat", weight := 3 }]
      = compute [{ value := str "cat", weight := 3 }, { value := str "dog", weight := 1 }] :=
  ⟨List.Perm.swap _ _ _, (compute_order_independent _ _ (List.Perm.swap _ _ _)).1⟩

/-- Claim C3: `AreDocumentsSimilar text1 text2 k` returns true if and only if the
Hamming distance of the two fingerprints is at most `k`, for every integer
`k`; both fingerprints are computed by `NewSimHash` without options, that is
in word mode with no stop words and `minTokenLength` 2. -/
theorem AreDocumentsSimilar_iff (T : UnicodeTables) (text1 text2 : GoString) (k : Int) :
    NewSimHash T text1 [] = some (compute (extractTokens T
      { stopWords := [], minTokenLength := 2, useNgram := false, ngramWidth := 4 } text1)) ∧
    NewSimHash T text2 [] = some (compute (extractTokens T
      { stopWords := [], minTokenLength := 2, useNgram := false, ngramWidth := 4 } text2)) ∧
    ∃ hash1 hash2, NewSimHash T text1 [] = some hash1 ∧ NewSimHash T text2 [] = some hash2 ∧
      AreDocumentsSimilar T text1 text2 k = some (decide (HammingDistance hash1 hash2 ≤ k)) ∧
      (AreDocumentsSimilar T text1 text2 k = some true ↔ HammingDistance hash1 hash2 ≤ k) := by
  have h : ∀ text, NewSimHash T text [] = some (compute (extractTokens T
      { stopWords := [], minTokenLength := 2, useNgram := false, ngramWidth := 4 } text)) := by
    intro text; rfl
  refine ⟨h text1, h text2, _, _, h text1, h text2, ?_, ?_⟩
  · unfold AreDocumentsSimilar; rw [h text1, h text2]
  · unfold AreDocumentsSimilar; rw [h text1, h text2]; simp

/-- Claim C4: `HammingDistance a b` is the number of bit positions `0 .. 63` at
which `a` and `b` differ, the population count of `a XOR b`; it lies between
0 and 64, and 64 is attained by `HammingDistance 0 0xFFFFFFFFFFFFFFFF`. -/
theorem HammingDistance_spec (a b : Nat) :
    HammingDistance a b = (countDiffering a b : Int) ∧
    HammingDistance a b = (((List.range 64).countP (fun i => (a ^^^ b).testBit i) : Nat) : Int) ∧
    0 ≤ HammingDistance a b ∧ HammingDistance a b ≤ 64 ∧
    HammingDistance 0 0xFFFFFFFFFFFFFFFF = 64 := by
  have h0 : OnesCount64 (a ^^^ b) = (List.range 64).countP (fun i => (a ^^^ b).testBit i) :=
    onesCount_eq_countP 64 _
  have h1 : OnesCount64 (a ^^^ b) = countDiffering a b := by
    have hf : (fun i => (a ^^^ b).testBit i) = (fun i => a.testBit i != b.testBit i) := by
      funext i
      rw [Nat.testBit_xor]
    rw [h0, hf, countDiffering]
  have h2 : OnesCount64 (a ^^^ b) ≤ 64 := onesCount_le 64 _
  refine ⟨?_, ?_, ?_, ?_, ?_⟩
  · unfold HammingDistance; rw [h1]
  · unfold HammingDistance; rw [h0]
  · unfold HammingDistance; omega
  · unfold HammingDistance; omega
  · decide

/-- Claim C5: `HammingDistance` is symmetric. -/
theorem HammingDistance_comm (a b : Nat) : HammingDistance a b = HammingDistance b a := by
  unfold HammingDistance
  rw [Nat.xor_comm]

/-- Claim C6: identical fingerprints have Hamming distance zero. -/
theorem HammingDistance_self (a : Nat) : HammingDistance a a = 0 := by
  unfold HammingDistance
  rw [Nat.xor_self]
  decide

/-- Claim C7, as amended: the empty text yields fingerprint 0 in both modes (for
every n-gram width), and a text made of white space only yields fingerprint 0
in word mode, and in n-gram mode when it is shorter than the effective
width. The Unicode tables are assumed to list no white space above Latin-1
as a letter or a number. -/
theorem whitespace_fingerprint_zero (T : UnicodeTables) (text : GoString)
    (hT : ∀ r, 0xFF < r → IsSpace r = true → T.Letter r = false ∧ T.Number r = false)
    (hws : ∀ r ∈ runes text, IsSpace r = true) :
    NewSimHash T text [] = some 0 ∧
    (∀ w : Int, len text < effectiveWidth w → NewSimHash T text [WithNgram w] = some 0) ∧
    NewSimHash T [] [] = some 0 ∧
    (∀ w : Int, NewSimHash T [] [WithNgram w] = some 0) := by
  have hword : ∀ t : GoString, (∀ r ∈ runes t, IsSpace r = true) →
      NewSimHash T t [] = some 0 := by
    intro t ht
    have htok : tokenize T t = [] :=
      tokenize_separators T t (fun r hr => space_is_separator T hT r (ht r hr))
    have he : extractTokens T (applyOptions []) t = [] := by
      unfold extractTokens
      dsimp only
      rw [htok]
      rfl
    rw [NewSimHash_word T t [] rfl, he, compute_nil]
  refine ⟨hword text hws, ?_, hword [] (by intro r hr; cases hr), ?_⟩
  · intro w hw
    exact (NewSimHash_ngram_short T text w hw).2
  · intro w
    have := effectiveWidth_pos w
    exact (NewSimHash_ngram_short T [] w (by unfold len; simpa using this)).2

/-- Claim C7, an instance of the amended statement: the text of the test
`TestNewSimHash_WhitespaceOnly`. -/
theorem whitespace_fingerprint_zero_witness :
    (∀ r, 0xFF < r → IsSpace r = true →
      asciiTables.Letter r = false ∧ asciiTables.Number r = false) ∧
    (∀ r ∈ runes (str "   \n\t  "), IsSpace r = true) ∧
    NewSimHash asciiTables (str "   \n\t  ") [] = some 0 ∧
    (∀ w : Int, len (str "   \n\t  ") < effectiveWidth w →
      NewSimHash asciiTables (str "   \n\t  ") [WithNgram w] = some 0) ∧
    NewSimHash asciiTables [] [] = some 0 ∧
    (∀ w : Int, NewSimHash asciiTables [] [WithNgram w] = some 0) :=
  ⟨fun _ _ _ => ⟨rfl, rfl⟩, by decide,
    whitespace_fingerprint_zero asciiTables (str "   \n\t  ") (fun _ _ _ => ⟨rfl, rfl⟩)
      (by decide)⟩

/-- Claim C7 fails as stated: in n-gram mode with width 4 the text of four
spaces is white space only, yet its single 4-gram is hashed like any other
and the fingerprint is the hash of that 4-gram, not 0. -/
theorem whitespace_ngram_counterexample :
    (∀ r ∈ runes (str "    "), IsSpace r = true) ∧
    NewSimHash asciiTables (str "    ") [WithNgram 4] = some 933119424263414595 := by
  decide

/-- Claim C8: the empty feature list has fingerprint 0; hence in word mode, when
every lower-cased token of the text is a configured stop word or has a
length (Go `len`) not above `minTokenLength`, no feature is extracted and
`NewSimHash` returns 0, as it does for the empty text. -/
theorem empty_features_zero (T : UnicodeTables) (text : GoString) (opts : List SimOption)
    (hmode : (applyOptions opts).useNgram = false)
    (hall : ∀ tok ∈ tokenize T text,
      ToLower T tok ∈ (applyOptions opts).stopWords ∨
      len (ToLower T tok) ≤ (applyOptions opts).minTokenLength) :
    compute [] = 0 ∧
    extractTokens T (applyOptions opts) text = [] ∧
    NewSimHash T text opts = some 0 ∧
    NewSimHash T [] opts = some 0 := by
  have he : extractTokens T (applyOptions opts) text = [] := by
    unfold extractTokens
    dsimp only
    rw [foldl_countToken_filtered T _ _ hall]
    rfl
  refine ⟨compute_nil, he, ?_, ?_⟩
  · rw [NewSimHash_word T text opts hmode, he, compute_nil]
  · rw [NewSimHash_word T [] opts hmode]
    have : extractTokens T (applyOptions opts) [] = [] := rfl
    rw [this, compute_nil]

/-- Claim C8, an instance: with the stop word `the` and the default minimum
length 2, every token of `The on, a THE` is filtered. -/
theorem empty_features_zero_witness :
    (applyOptions [WithStopWords [str "the"]]).useNgram = false ∧
    (∀ tok ∈ tokenize asciiTables (str "The on, a THE"),
      ToLower asciiTables tok ∈ (applyOptions [WithStopWords [str "the"]]).stopWords ∨
      len (ToLower asciiTables tok)
        ≤ (applyOptions [WithStopWords [str "the"]]).minTokenLength) ∧
    compute [] = 0 ∧
    extractTokens asciiTables (applyOptions [WithStopWords [str "the"]]) (str "The on, a THE")
      = [] ∧
    NewSimHash asciiTables (str "The on, a THE") [WithStopWords [str "the"]] = some 0 ∧
    NewSimHash asciiTables [] [WithStopWords [str "the"]] = some 0 :=
  ⟨by decide, by decide,
    empty_features_zero asciiTables (str "The on, a THE") [WithStopWords [str "the"]]
      (by decide) (by decide)⟩

/-- Claim C9: in n-gram mode, when the effective width (`w` if `w > 0`, otherwise
4) exceeds the byte length of the text, no n-gram is produced and
`NewSimHash text (WithNgram w)` is 0. -/
theorem ngram_short_text_zero (T : UnicodeTables) (text : GoString) (w : Int)
    (h : len text < (if w > 0 then w else 4)) :
    extractNgrams (applyOptions [WithNgram w]) text = some [] ∧
    NewSimHash T text [WithNgram w] = some 0 := by
  have hw : (if w > 0 then w else 4) = effectiveWidth w := by
    unfold effectiveWidth
    by_cases h0 : w ≤ 0
    · rw [if_pos h0, if_neg (by omega)]
    · rw [if_neg h0, if_pos (by omega)]
  rw [hw] at h
  exact NewSimHash_ngram_short T text w h

/-- Claim C9, an instance: the text `abc` with width 4, as in the test
`TestNewSimHash_NgramShortText`. -/
theorem ngram_short_text_zero_witness :
    len (str "abc") < (if (4 : Int) > 0 then 4 else 4) ∧
    extractNgrams (applyOptions [WithNgram 4]) (str "abc") = some [] ∧
    NewSimHash asciiTables (str "abc") [WithNgram 4] = some 0 :=
  ⟨by decide, ngram_short_text_zero asciiTables (str "abc") 4 (by decide)⟩

/-- Claim C10: a width that is not positive silently defaults to 4. For every
text and every `w ≤ 0`, `NewSimHash text (WithNgram w)` equals
`NewSimHash text (WithNgram 4)`, and the call returns a fingerprint: no slice
is out of range. -/
theorem ngram_nonpositive_width (T : UnicodeTables) (text : GoString) (w : Int) (hw : w ≤ 0) :
    NewSimHash T text [WithNgram w] = NewSimHash T text [WithNgram 4] ∧
    ∃ sh, NewSimHash T text [WithNgram w] = some sh := by
  have hx : ∀ w', extractNgrams (applyOptions [WithNgram w']) text
      = (ngramLoop text (effectiveWidth w') (text.length + 1) 0 []).map mapFeatures := by
    intro w'; rfl
  have he : effectiveWidth w = effectiveWidth 4 := by
    unfold effectiveWidth; rw [if_pos hw]; rfl
  constructor
  · rw [NewSimHash_ngram, NewSimHash_ngram, hx, hx, he]
  · obtain ⟨fs, hfs⟩ := extractNgrams_some (applyOptions [WithNgram w]) text
    exact ⟨compute fs, by rw [NewSimHash_ngram, hfs]; rfl⟩

/-- Claim C10, an instance: the text `abcdef` with width `-3`. -/
theorem ngram_nonpositive_width_witness :
    (-3 : Int) ≤ 0 ∧
    NewSimHash asciiTables (str "abcdef") [WithNgram (-3)]
      = NewSimHash asciiTables (str "abcdef") [WithNgram 4] ∧
    ∃ sh, NewSimHash asciiTables (str "abcdef") [WithNgram (-3)] = some sh :=
  ⟨by decide, ngram_nonpositive_width asciiTables (str "abcdef") (-3) (by decide)⟩

/-! ## Texts within ASCII -/

theorem isASCII_iff (s : GoString) : isASCII s = true ↔ ∀ b ∈ s, b.toNat < 0x80 := by
  simp [isASCII, List.all_eq_true]

theorem DecodeRuneInString_ascii (b : UInt8) (bs : GoString) (h : b.toNat < 0x80) :
    DecodeRuneInString (b :: bs) = (b.toNat, 1) := by
  unfold DecodeRuneInString
  dsimp only
  rw [if_pos h]

theorem runes_ascii (s : GoString) (h : ∀ b ∈ s, b.toNat < 0x80) :
    runes s = s.map UInt8.toNat := by
  induction s with
  | nil => rfl
  | cons b bs ih =>
    rw [runes_cons, DecodeRuneInString_ascii b bs (h b (List.mem_cons_self _ _))]
    simp only [List.drop_succ_cons, List.drop_zero, List.map_cons]
    rw [ih (fun b' hb' => h b' (List.mem_cons_of_mem _ hb'))]

theorem foldl_congr_mem {α β : Type} (f g : β → α → β) (l : List α)
    (h : ∀ b, ∀ a ∈ l, f b a = g b a) (b : β) : l.foldl f b = l.foldl g b := by
  induction l generalizing b with
  | nil => rfl
  | cons a l ih =>
    rw [List.foldl_cons, List.foldl_cons, h b a (List.mem_cons_self _ _)]
    exact ih (fun b' a' ha' => h b' a' (List.mem_cons_of_mem _ ha')) _

theorem tokenizeStep_latin1 (T T' : UnicodeTables) (st : List GoString × GoString) (r : Nat)
    (hr : r ≤ 0xFF) : tokenizeStep T st r = tokenizeStep T' st r := by
  unfold tokenizeStep IsLetter IsNumber
  rw [if_pos hr, if_pos hr, if_pos hr, if_pos hr]

/-- Tokenization does not consult the tables on a text within Latin-1. -/
theorem tokenize_latin1 (T T' : UnicodeTables) (text : GoString)
    (h : ∀ r ∈ runes text, r ≤ 0xFF) : tokenize T text = tokenize T' text := by
  unfold tokenize
  dsimp only
  rw [foldl_congr_mem (tokenizeStep T) (tokenizeStep T') (runes text)
    (fun st r hr => tokenizeStep_latin1 T T' st r (h r hr))]

theorem encodeRune_ascii (r : Nat) (h : r < 0x80) :
    ∀ b ∈ encodeRune r, b.toNat < 0x80 := by
  unfold encodeRune
  rw [if_pos (by omega)]
  intro b hb
  simp only [List.mem_singleton] at hb
  subst hb
  have hr : (UInt8.ofNat r).toNat = r % 256 := rfl
  rw [hr]
  omega

theorem foldl_tokenizeStep_ascii (T : UnicodeTables) (rs : List Nat) (h : ∀ r ∈ rs, r < 0x80) :
    ∀ st : List GoString × GoString,
      (∀ tok ∈ st.1, ∀ b ∈ tok, b.toNat < 0x80) → (∀ b ∈ st.2, b.toNat < 0x80) →
      (∀ tok ∈ (rs.foldl (tokenizeStep T) st).1, ∀ b ∈ tok, b.toNat < 0x80) ∧
      (∀ b ∈ (rs.foldl (tokenizeStep T) st).2, b.toNat < 0x80) := by
  induction rs with
  | nil => intro st h1 h2; exact ⟨h1, h2⟩
  | cons r rs ih =>
    intro st h1 h2
    rw [List.foldl_cons]
    apply ih (fun r' hr' => h r' (List.mem_cons_of_mem _ hr'))
    · unfold tokenizeStep
      split
      · exact h1
      · split
        · intro tok htok
          simp only [List.mem_append, List.mem_singleton] at htok
          rcases htok with ht | ht
          · exact h1 tok ht
          · subst ht; exact h2
        · exact h1
    · unfold tokenizeStep
      split
      · intro b hb
        simp only [List.mem_append] at hb
        rcases hb with hb | hb
        · exact h2 b hb
        · exact encodeRune_ascii r (h r (List.mem_cons_self _ _)) b hb
      · split
        · intro b hb; cases hb
        · exact h2

/-- The tokens of an ASCII text are ASCII. -/
theorem tokenize_ascii (T : UnicodeTables) (text : GoString) (h : ∀ b ∈ text, b.toNat < 0x80) :
    ∀ tok ∈ tokenize T text, ∀ b ∈ tok, b.toNat < 0x80 := by
  have hr : ∀ r ∈ runes text, r < 0x80 := by
    rw [runes_ascii text h]
    intro r hr
    simp only [List.mem_map] at hr
    obtain ⟨b, hb, rfl⟩ := hr
    exact h b hb
  obtain ⟨h1, h2⟩ := foldl_tokenizeStep_ascii T (runes text) hr ([], [])
    (by intro tok htok; cases htok) (by intro b hb; cases hb)
  unfold tokenize
  dsimp only
  split
  · intro tok htok
    simp only [List.mem_append, List.mem_singleton] at htok
    rcases htok with ht | ht
    · exact h1 tok ht
    · subst ht; exact h2
  · exact h1

theorem ToLower_ascii (T T' : UnicodeTables) (s : GoString) (h : ∀ b ∈ s, b.toNat < 0x80) :
    ToLower T s = ToLower T' s := by
  unfold ToLower
  rw [runes_ascii s h]
  apply List.flatMap_congr
  intro r hr
  simp only [List.mem_map] at hr
  obtain ⟨b, hb, rfl⟩ := hr
  have hb' : b.toNat ≤ 0x7F := by
    have := h b hb
    omega
  unfold ToLowerRune
  rw [if_pos hb', if_pos hb']

/-- Word-mode extraction does not consult the tables on an ASCII text. -/
theorem extractTokens_ascii (T T' : UnicodeTables) (s : simHash) (text : GoString)
    (h : ∀ b ∈ text, b.toNat < 0x80) : extractTokens T s text = extractTokens T' s text := by
  unfold extractTokens
  dsimp only
  have hr : ∀ r ∈ runes text, r ≤ 0xFF := by
    rw [runes_ascii text h]
    intro r hr
    simp only [List.mem_map] at hr
    obtain ⟨b, hb, rfl⟩ := hr
    have := h b hb
    omega
  rw [tokenize_latin1 T T' text hr]
  rw [foldl_congr_mem (countToken T s) (countToken T' s) (tokenize T' text)]
  intro m tok htok
  unfold countToken
  rw [ToLower_ascii T T' tok (tokenize_ascii T' text h tok htok)]

/-- The fingerprint of an ASCII text does not depend on the Unicode tables. -/
theorem NewSimHash_ascii (T T' : UnicodeTables) (text : GoString) (opts : List SimOption)
    (h : isASCII text = true) : NewSimHash T text opts = NewSimHash T' text opts := by
  unfold NewSimHash extractor
  dsimp only
  rw [extractTokens_ascii T T' _ text ((isASCII_iff text).1 h)]

/-! ## Scaling and bounds of the votes -/

theorem contribution_scale (c : Int) (f : feature) (i : Nat) :
    contribution { f with weight := c * f.weight } i = c * contribution f i := by
  have hh : feature.hash { f with weight := c * f.weight } = f.hash := rfl
  unfold contribution
  rw [hh]
  dsimp only
  split
  · rfl
  · ring

theorem vote_scale (c : Int) (fs : List feature) (i : Nat) :
    vote (scaleWeights c fs) i = c * vote fs i := by
  induction fs with
  | nil => simp [vote, scaleWeights]
  | cons f fs ih =>
    have h1 : vote (scaleWeights c (f :: fs)) i
        = contribution { f with weight := c * f.weight } i + vote (scaleWeights c fs) i := by
      simp [vote, scaleWeights]
    have h2 : vote (f :: fs) i = contribution f i + vote fs i := by simp [vote]
    rw [h1, h2, ih, contribution_scale]
    ring

theorem pos_of_scale (c v : Int) (hc : 1 ≤ c) : 0 < c * v ↔ 0 < v := by
  constructor
  · intro h
    by_contra hv
    have : c * v ≤ 0 := Int.mul_nonpos_of_nonneg_of_nonpos (by omega) (by omega)
    omega
  · intro h
    exact Int.mul_pos (by omega) h

theorem abs_le_scale (c v : Int) (hc : 1 ≤ c) : v.natAbs ≤ (c * v).natAbs := by
  rw [Int.natAbs_mul]
  have : 1 ≤ c.natAbs := by omega
  exact Nat.le_mul_of_pos_left _ this

/-- Scaling all weights by `c ≥ 1` leaves the fingerprint unchanged when the scaled votes
fit the range of `int`. -/
theorem compute_scale (c : Int) (fs : List feature) (hc : 1 ≤ c)
    (hfit : ∀ i, i < 64 →
      -2 ^ 63 ≤ vote (scaleWeights c fs) i ∧ vote (scaleWeights c fs) i < 2 ^ 63) :
    compute (scaleWeights c fs) = compute fs := by
  apply Nat.eq_of_testBit_eq
  intro i
  rw [compute_testBit, compute_testBit]
  by_cases hi : i < fingerPrintSize
  · obtain ⟨h1, h2⟩ := hfit i hi
    have hs := vote_scale c fs i
    have ha := abs_le_scale c (vote fs i) hc
    rw [hs] at h1 h2
    have hw1 : wrapInt (vote (scaleWeights c fs) i) = c * vote fs i := by
      rw [hs]; exact wrapInt_of_bounds _ h1 h2
    have hw2 : wrapInt (vote fs i) = vote fs i := by
      have hp := pos_of_scale c (vote fs i) hc
      generalize c * vote fs i = x at h1 h2 ha hp
      apply wrapInt_of_bounds <;> omega
    rw [hw1, hw2]
    have := pos_of_scale c (vote fs i) hc
    simp only [hi, decide_True, Bool.true_and]
    exact decide_eq_decide.2 this
  · simp [hi]

theorem totalWeight_perm {fs gs : List feature} (h : fs.Perm gs) :
    totalWeight fs = totalWeight gs := by
  unfold totalWeight
  exact (h.map _).sum_eq

theorem leBytes_lt (n x : Nat) : ∀ b ∈ leBytes n x, b < 256 := by
  induction n generalizing x with
  | zero => intro b hb; simp [leBytes] at hb
  | succ n ih =>
    intro b hb
    simp only [leBytes, List.mem_cons] at hb
    rcases hb with h | h
    · omega
    · exact ih _ b h

theorem beValue_lt (bs : List Nat) (h : ∀ b ∈ bs, b < 256) :
    beValue bs < 256 ^ bs.length := by
  unfold beValue
  have key : ∀ (bs : List Nat) (acc k : Nat), (∀ b ∈ bs, b < 256) → acc < 256 ^ k →
      bs.foldl (fun acc b => acc * 256 + b) acc < 256 ^ (k + bs.length) := by
    intro bs
    induction bs with
    | nil => intro acc k _ hacc; simpa using hacc
    | cons b bs ih =>
      intro acc k hb hacc
      rw [List.foldl_cons, List.length_cons]
      have hb0 := hb b (List.mem_cons_self _ _)
      have h1 : acc * 256 + b < 256 ^ (k + 1) := by
        rw [pow_succ]
        have : acc + 1 ≤ 256 ^ k := hacc
        nlinarith
      have := ih (acc * 256 + b) (k + 1) (fun b' hb' => hb b' (List.mem_cons_of_mem _ hb')) h1
      rw [show k + (bs.length + 1) = k + 1 + bs.length by omega]
      exact this
  have := key bs 0 0 h (by simp)
  simpa using this

/-- The hash of a feature is a `uint64`. -/
theorem hash_lt (f : feature) : f.hash < 2 ^ 64 := by
  unfold feature.hash
  have hb : ∀ b ∈ (md5Sum f.value).take 8, b < 256 := by
    intro b hb
    have hm := List.mem_of_mem_take hb
    unfold md5Sum at hm
    simp only [List.mem_append] at hm
    rcases hm with ((h | h) | h) | h <;> exact leBytes_lt _ _ b h
  have h1 := beValue_lt _ hb
  have h2 : ((md5Sum f.value).take 8).length ≤ 8 := by
    rw [List.length_take]; omega
  calc beValue ((md5Sum f.value).take 8) < 256 ^ ((md5Sum f.value).take 8).length := h1
    _ ≤ 256 ^ 8 := Nat.pow_le_pow_right (by norm_num) h2
    _ = 2 ^ 64 := by norm_num

theorem hash_testBit_ge (f : feature) (i : Nat) (hi : 64 ≤ i) : f.hash.testBit i = false := by
  apply Nat.testBit_lt_two_pow
  calc f.hash < 2 ^ 64 := hash_lt f
    _ ≤ 2 ^ i := Nat.pow_le_pow_right (by norm_num) hi

theorem vote_all_set (fs : List feature) (i : Nat) (h : ∀ f ∈ fs, f.hash.testBit i = true) :
    vote fs i = weightSum fs := by
  induction fs with
  | nil => rfl
  | cons f fs ih =>
    have h2 : vote (f :: fs) i = contribution f i + vote fs i := by simp [vote]
    have h3 : weightSum (f :: fs) = f.weight + weightSum fs := by simp [weightSum]
    rw [h2, h3, ih (fun g hg => h g (List.mem_cons_of_mem _ hg))]
    unfold contribution
    rw [if_pos (h f (List.mem_cons_self _ _))]

theorem vote_none_set (fs : List feature) (i : Nat) (h : ∀ f ∈ fs, f.hash.testBit i = false) :
    vote fs i = - weightSum fs := by
  induction fs with
  | nil => rfl
  | cons f fs ih =>
    have h2 : vote (f :: fs) i = contribution f i + vote fs i := by simp [vote]
    have h3 : weightSum (f :: fs) = f.weight + weightSum fs := by simp [weightSum]
    rw [h2, h3, ih (fun g hg => h g (List.mem_cons_of_mem _ hg))]
    unfold contribution
    have := h f (List.mem_cons_self _ _)
    rw [this]
    simp only [Bool.false_eq_true, if_false]
    ring

theorem weightSum_pos (fs : List feature) (hne : fs ≠ []) (hw : ∀ f ∈ fs, 1 ≤ f.weight) :
    0 < weightSum fs := by
  induction fs with
  | nil => exact absurd rfl hne
  | cons f fs ih =>
    have h3 : weightSum (f :: fs) = f.weight + weightSum fs := by simp [weightSum]
    rw [h3]
    have h1 := hw f (List.mem_cons_self _ _)
    by_cases hfs : fs = []
    · subst hfs
      simp [weightSum]
      omega
    · have := ih hfs (fun g hg => hw g (List.mem_cons_of_mem _ hg))
      omega

/-- Without overflow, a bit is set exactly when its exact vote is positive. -/
theorem compute_testBit_exact (fs : List feature) (hfit : totalWeight fs < 2 ^ 63) (i : Nat) :
    (compute fs).testBit i = (decide (i < 64) && decide (0 < vote fs i)) := by
  have hv := vote_fits fs hfit i
  rw [compute_testBit, wrapInt_of_bounds _ hv.1 hv.2]
  rfl

theorem compute_sandwich_aux (fs : List feature) (hne : fs ≠ [])
    (hw : ∀ f ∈ fs, 1 ≤ f.weight) (hfit : totalWeight fs < 2 ^ 63) (i : Nat) :
    ((∀ f ∈ fs, f.hash.testBit i = true) → (compute fs).testBit i = true) ∧
    ((compute fs).testBit i = true → ∃ f ∈ fs, f.hash.testBit i = true) := by
  have hpos := weightSum_pos fs hne hw
  constructor
  · intro hall
    obtain ⟨f, hf⟩ := List.exists_mem_of_ne_nil fs hne
    have hi : i < 64 := by
      by_contra hge
      have := hash_testBit_ge f i (by omega)
      rw [hall f hf] at this
      cases this
    rw [compute_testBit_exact fs hfit, vote_all_set fs i hall]
    simp [hi, hpos]
  · intro hc
    by_contra hno
    have hnone : ∀ f ∈ fs, f.hash.testBit i = false := by
      intro f hf
      cases hb : f.hash.testBit i
      · rfl
      · exact absurd ⟨f, hf, hb⟩ hno
    rw [compute_testBit_exact fs hfit, vote_none_set fs i hnone] at hc
    simp at hc
    omega

theorem compute_single (f : feature) (h1 : 1 ≤ f.weight) (h2 : f.weight < 2 ^ 63) :
    compute [f] = f.hash := by
  have hfit : totalWeight [f] < 2 ^ 63 := by
    simp [totalWeight]; omega
  apply Nat.eq_of_testBit_eq
  intro i
  rw [compute_testBit_exact [f] hfit]
  have hv : vote [f] i = contribution f i := by simp [vote]
  rw [hv]
  unfold contribution
  by_cases hi : i < 64
  · cases hb : f.hash.testBit i
    · simp [hi]; omega
    · simp [hi]; omega
  · rw [hash_testBit_ge f i (by omega)]
    simp [hi]

theorem compute_pair (f g : feature) (h1 : 1 ≤ f.weight) (heq : f.weight = g.weight)
    (h2 : 2 * f.weight < 2 ^ 63) : compute [f, g] = f.hash &&& g.hash := by
  have hfit : totalWeight [f, g] < 2 ^ 63 := by
    simp [totalWeight]; omega
  apply Nat.eq_of_testBit_eq
  intro i
  rw [compute_testBit_exact [f, g] hfit, Nat.testBit_and]
  have hv : vote [f, g] i = contribution f i + contribution g i := by simp [vote]
  rw [hv]
  unfold contribution
  by_cases hi : i < 64
  · cases hb : f.hash.testBit i <;> cases hc : g.hash.testBit i <;> simp [hi] <;> omega
  · rw [hash_testBit_ge f i (by omega)]
    simp [hi]

/-- A text whose features are those of another text with every weight multiplied by
`c ≥ 1` has the same fingerprint; no vote can overflow, the weights of a text
summing to at most its length. -/
theorem scaled_text_same_fingerprint (T : UnicodeTables) (opts : List SimOption)
    (text1 text2 : GoString) (fs gs : List feature) (c : Int) (hc : 1 ≤ c)
    (hlen : text1.length < 2 ^ 63)
    (h2 : extractor T (applyOptions opts) text2 = some fs)
    (h1 : extractor T (applyOptions opts) text1 = some gs)
    (hp : gs.Perm (scaleWeights c fs)) :
    NewSimHash T text1 opts = NewSimHash T text2 opts := by
  have hw := extractor_totalWeight T _ text1 gs h1
  have hfit : totalWeight (scaleWeights c fs) < 2 ^ 63 := by
    rw [← totalWeight_perm hp]; omega
  have hs := compute_scale c fs hc (fun i _ => vote_fits _ hfit i)
  unfold NewSimHash
  dsimp only
  rw [h1, h2, Option.map_some', Option.map_some', compute_perm hp, hs]

/-! ## The claims on weights and hashes -/

/-- Claim C15: weight sensitivity. Under default options the texts
`cat cat cat dog` and `cat dog` have different fingerprints, at non-zero
Hamming distance: the repetition changes the weight of the feature `cat`
from 1 to 3. -/
theorem repeated_words_change_fingerprint (T : UnicodeTables) :
    ∃ hash1 hash2,
      NewSimHash T (str "cat cat cat dog") [] = some hash1 ∧
      NewSimHash T (str "cat dog") [] = some hash2 ∧
      hash1 ≠ hash2 ∧ HammingDistance hash1 hash2 ≠ 0 ∧
      extractTokens T (applyOptions []) (str "cat cat cat dog")
        = [{ value := str "cat", weight := 3 }, { value := str "dog", weight := 1 }] ∧
      extractTokens T (applyOptions []) (str "cat dog")
        = [{ value := str "cat", weight := 1 }, { value := str "dog", weight := 1 }] := by
  have h1 : NewSimHash asciiTables (str "cat cat cat dog") [] = some 15021741459730114318 := by
    decide
  have h2 : NewSimHash asciiTables (str "cat dog") [] = some 22520200448966916 := by
    decide
  have h3 : extractTokens asciiTables (applyOptions []) (str "cat cat cat dog")
      = [{ value := str "cat", weight := 3 }, { value := str "dog", weight := 1 }] := by
    decide
  have h4 : extractTokens asciiTables (applyOptions []) (str "cat dog")
      = [{ value := str "cat", weight := 1 }, { value := str "dog", weight := 1 }] := by
    decide
  refine ⟨15021741459730114318, 22520200448966916, ?_, ?_, by decide, by decide, ?_, ?_⟩
  · rw [NewSimHash_ascii T asciiTables _ _ (by decide), h1]
  · rw [NewSimHash_ascii T asciiTables _ _ (by decide), h2]
  · rw [extractTokens_ascii T asciiTables _ _ ((isASCII_iff _).1 (by decide)), h3]
  · rw [extractTokens_ascii T asciiTables _ _ ((isASCII_iff _).1 (by decide)), h4]

/-- Claim C18: the fingerprint is invariant under uniform positive scaling of
the weights. When every weight is multiplied by `c ≥ 1` and the scaled votes
stay within the range of `int` (exact integer arithmetic), `compute` is
unchanged; so a text whose features are those of another text with every
weight multiplied by `c` has the same fingerprint, as do `cat cat dog dog`
and `cat dog`. -/
theorem scaling_invariance (c : Int) (fs : List feature) (hc : 1 ≤ c)
    (hfit : ∀ i, i < 64 →
      -2 ^ 63 ≤ vote (scaleWeights c fs) i ∧ vote (scaleWeights c fs) i < 2 ^ 63) :
    compute (scaleWeights c fs) = compute fs ∧
    (∀ (T : UnicodeTables) (opts : List SimOption) (text1 text2 : GoString)
        (gs : List feature),
      extractor T (applyOptions opts) text2 = some fs →
      extractor T (applyOptions opts) text1 = some gs →
      gs.Perm (scaleWeights c fs) →
      NewSimHash T text1 opts = NewSimHash T text2 opts) ∧
    (∀ T : UnicodeTables,
      NewSimHash T (str "cat cat dog dog") [] = NewSimHash T (str "cat dog") []) := by
  have hs := compute_scale c fs hc hfit
  refine ⟨hs, ?_, ?_⟩
  · intro T opts text1 text2 gs h2 h1 hp
    unfold NewSimHash
    dsimp only
    rw [h1, h2, Option.map_some', Option.map_some', compute_perm hp, hs]
  · intro T
    have h1 : NewSimHash asciiTables (str "cat cat dog dog") [] = some 22520200448966916 := by
      decide
    have h2 : NewSimHash asciiTables (str "cat dog") [] = some 22520200448966916 := by
      decide
    rw [NewSimHash_ascii T asciiTables _ _ (by decide), h1,
      NewSimHash_ascii T asciiTables _ _ (by decide), h2]

/-- Claim C18, an instance: the features `cat` and `dog` of weight 1 scaled by 2,
which are the features of `cat cat dog dog`. -/
theorem scaling_invariance_witness :
    (1 : Int) ≤ 2 ∧
    compute (scaleWeights 2
        [{ value := str "cat", weight := 1 }, { value := str "dog", weight := 1 }])
      = compute [{ value := str "cat", weight := 1 }, { value := str "dog", weight := 1 }] ∧
    NewSimHash asciiTables (str "cat cat dog dog") []
      = NewSimHash asciiTables (str "cat dog") [] :=
  ⟨by decide,
    (scaling_invariance 2 _ (by decide) (fun i _ => vote_fits _ (by decide) i)).1,
    (scaling_invariance 2
        [{ value := str "cat", weight := 1 }, { value := str "dog", weight := 1 }]
        (by decide) (fun i _ => vote_fits _ (by decide) i)).2.1
      asciiTables [] (str "cat cat dog dog") (str "cat dog") _ (by decide) (by decide)
      (List.Perm.refl _)⟩

/-- Claim C19: for every non-empty feature list whose weights are all at least 1,
every bit set in all hashes is set in the fingerprint and every bit set in
the fingerprint is set in at least one hash; a single feature yields exactly
its hash, and two features of equal weight yield exactly the bitwise AND of
their hashes. The weights are `int`s whose sum is an `int` as well, that is,
less than `2 ^ 63`: every list `compute` is called with is of this kind, the
weights of an extractor being counts of occurrences in the text that sum to
at most its length (`extractor_totalWeight`). -/
theorem fingerprint_between_and_or (fs : List feature) (hne : fs ≠ [])
    (hw : ∀ f ∈ fs, 1 ≤ f.weight) (hfit : totalWeight fs < 2 ^ 63) :
    (∀ i, (∀ f ∈ fs, f.hash.testBit i = true) → (compute fs).testBit i = true) ∧
    (∀ i, (compute fs).testBit i = true → ∃ f ∈ fs, f.hash.testBit i = true) ∧
    (∀ f, fs = [f] → compute fs = f.hash) ∧
    (∀ f g, fs = [f, g] → f.weight = g.weight → compute fs = f.hash &&& g.hash) := by
  refine ⟨fun i => (compute_sandwich_aux fs hne hw hfit i).1,
    fun i => (compute_sandwich_aux fs hne hw hfit i).2, ?_, ?_⟩
  · intro f hf
    subst hf
    have h1 := hw f (List.mem_singleton_self f)
    have h2 : f.weight < 2 ^ 63 := by
      simp only [totalWeight, List.map_cons, List.map_nil, List.sum_cons, List.sum_nil] at hfit
      omega
    exact compute_single f h1 h2
  · intro f g hfg heq
    subst hfg
    have h1 := hw f (List.mem_cons_self _ _)
    have h2 : 2 * f.weight < 2 ^ 63 := by
      simp only [totalWeight, List.map_cons, List.map_nil, List.sum_cons, List.sum_nil] at hfit
      omega
    exact compute_pair f g h1 heq h2

/-- Claim C19, an instance: the features `cat` and `dog` of weight 1. -/
theorem fingerprint_between_and_or_witness :
    ([{ value := str "cat", weight := 1 }, { value := str "dog", weight := 1 }] : List feature)
      ≠ [] ∧
    compute [{ value := str "cat", weight := 1 }, { value := str "dog", weight := 1 }]
      = feature.hash { value := str "cat", weight := 1 }
        &&& feature.hash { value := str "dog", weight := 1 } :=
  ⟨by decide,
    (fingerprint_between_and_or
      [{ value := str "cat", weight := 1 }, { value := str "dog", weight := 1 }]
      (by decide) (by decide) (by decide)).2.2.2 _ _ rfl rfl⟩

/-- A remark on the range of the weights: the features `cat` and `dog` of weight
`2 ^ 62` each have bit 2 set in both hashes, but the accumulator of that bit
wraps around to `-2 ^ 63`, so bit 2 of the fingerprint is cleared. No
extractor produces such a list: a text with `2 ^ 62` occurrences of each word
would be longer than any Go string. -/
theorem compute_pair_wraps_beyond_int_range :
    overflowPair ≠ [] ∧ (∀ f ∈ overflowPair, 1 ≤ f.weight) ∧
    (∀ f ∈ overflowPair, f.hash.testBit 2 = true) ∧
    (compute overflowPair).testBit 2 = false ∧
    compute overflowPair
      ≠ feature.hash { value := str "cat", weight := 2 ^ 62 }
        &&& feature.hash { value := str "dog", weight := 2 ^ 62 } := by
  decide

/-! ## Counting into a map -/

theorem keys_incr (m : GoMap) (k : GoString) :
    (m.incr k).keys = if k ∈ m.keys then m.keys else m.keys ++ [k] := by
  induction m with
  | nil => simp [GoMap.incr, GoMap.keys]
  | cons kc m ih =>
    obtain ⟨k', c⟩ := kc
    unfold GoMap.incr
    by_cases hk : k' = k
    · subst hk
      simp [GoMap.keys]
    · rw [if_neg hk]
      have hk' : ¬ k = k' := fun h => hk h.symm
      simp only [GoMap.keys, List.map_cons, List.mem_cons, hk', false_or] at ih ⊢
      rw [ih]
      split <;> simp

theorem mem_keys_incr (m : GoMap) (k k' : GoString) :
    k' ∈ (m.incr k).keys ↔ k' ∈ m.keys ∨ k' = k := by
  rw [keys_incr]
  split
  · constructor
    · intro h; exact Or.inl h
    · rintro (h | h)
      · exact h
      · subst h; assumption
  · simp

theorem nodup_keys_incr (m : GoMap) (k : GoString) (h : m.keys.Nodup) :
    (m.incr k).keys.Nodup := by
  rw [keys_incr]
  split
  · exact h
  · rename_i hk
    rw [List.nodup_append]
    refine ⟨h, List.nodup_singleton k, ?_⟩
    intro a ha hb
    simp only [List.mem_singleton] at hb
    subst hb
    exact hk ha

theorem get_incr (m : GoMap) (k k' : GoString) :
    (m.incr k).get k' = if k = k' then m.get k' + 1 else m.get k' := by
  induction m with
  | nil =>
    simp only [GoMap.incr, GoMap.get]
    split <;> simp
  | cons kc m ih =>
    obtain ⟨k0, c⟩ := kc
    unfold GoMap.incr
    by_cases hk : k0 = k
    · subst hk
      rw [if_pos rfl]
      simp only [GoMap.get]
      split <;> rfl
    · rw [if_neg hk]
      simp only [GoMap.get]
      by_cases h0 : k0 = k'
      · subst h0
        have : ¬ k = k0 := fun h => hk h.symm
        simp [this]
      · simp only [h0, if_false]
        exact ih

theorem get_of_mem (m : GoMap) (h : m.keys.Nodup) (k : GoString) (c : Int)
    (hm : (k, c) ∈ m) : m.get k = c := by
  induction m with
  | nil => cases hm
  | cons kc m ih =>
    obtain ⟨k0, c0⟩ := kc
    simp only [GoMap.keys, List.map_cons, List.nodup_cons] at h
    simp only [List.mem_cons, Prod.mk.injEq] at hm
    simp only [GoMap.get]
    rcases hm with ⟨h1, h2⟩ | hm
    · subst h1; subst h2; simp
    · have hne : ¬ k0 = k := by
        intro he
        subst he
        exact h.1 (List.mem_map.2 ⟨(k0, c), hm, rfl⟩)
      rw [if_neg hne]
      exact ih h.2 hm

/-- After counting the keys `ks` into the map `m`: the keys stay distinct, they are the
old keys and the members of `ks`, and every counter has grown by the number of
occurrences of its key in `ks`. -/
theorem foldl_incr_spec (ks : List GoString) :
    ∀ m : GoMap, m.keys.Nodup →
      (ks.foldl GoMap.incr m).keys.Nodup ∧
      (∀ k, k ∈ (ks.foldl GoMap.incr m).keys ↔ k ∈ m.keys ∨ k ∈ ks) ∧
      (∀ k, (ks.foldl GoMap.incr m).get k = m.get k + (ks.count k : Int)) := by
  induction ks with
  | nil => intro m h; simp [h]
  | cons k0 ks ih =>
    intro m h
    obtain ⟨h1, h2, h3⟩ := ih (m.incr k0) (nodup_keys_incr m k0 h)
    rw [List.foldl_cons]
    refine ⟨h1, ?_, ?_⟩
    · intro k
      rw [h2 k, mem_keys_incr, List.mem_cons]
      tauto
    · intro k
      rw [h3 k, get_incr, List.count_cons]
      by_cases hk : k0 = k
      · subst hk; simp; ring
      · have : (k0 == k) = false := by simpa using hk
        simp [hk, this]

theorem weightSum_mapFeatures_incr (m : GoMap) (k : GoString) :
    weightSum (mapFeatures (m.incr k)) = weightSum (mapFeatures m) + 1 := by
  induction m with
  | nil => simp [GoMap.incr, mapFeatures, weightSum]
  | cons kc m ih =>
    obtain ⟨k0, c⟩ := kc
    unfold GoMap.incr
    by_cases hk : k0 = k
    · rw [if_pos hk]
      simp only [mapFeatures, weightSum, List.map_cons, List.sum_cons]
      ring
    · rw [if_neg hk]
      simp only [mapFeatures, weightSum, List.map_cons, List.sum_cons] at ih ⊢
      rw [ih]
      ring

theorem weightSum_foldl_incr (ks : List GoString) :
    ∀ m : GoMap, weightSum (mapFeatures (ks.foldl GoMap.incr m))
      = weightSum (mapFeatures m) + ks.length := by
  induction ks with
  | nil => intro m; simp
  | cons k ks ih =>
    intro m
    rw [List.foldl_cons, ih, weightSum_mapFeatures_incr, List.length_cons]
    push_cast
    ring

/-- The features of the map that counts the keys `ks`: distinct values, which are
the members of `ks`, each weighted by its number of occurrences. -/
theorem mapFeatures_count (ks : List GoString) :
    ((mapFeatures (ks.foldl GoMap.incr [])).map (fun f => f.value)).Nodup ∧
    (∀ v, v ∈ (mapFeatures (ks.foldl GoMap.incr [])).map (fun f => f.value) ↔ v ∈ ks) ∧
    (∀ f ∈ mapFeatures (ks.foldl GoMap.incr []), f.weight = (ks.count f.value : Int)) ∧
    weightSum (mapFeatures (ks.foldl GoMap.incr [])) = ks.length := by
  obtain ⟨h1, h2, h3⟩ := foldl_incr_spec ks [] (by simp [GoMap.keys])
  have hv : (mapFeatures (ks.foldl GoMap.incr [])).map (fun f => f.value)
      = (ks.foldl GoMap.incr []).keys := by
    simp [mapFeatures, GoMap.keys]
  refine ⟨hv ▸ h1, ?_, ?_, ?_⟩
  · intro v
    rw [hv, h2 v]
    simp [GoMap.keys]
  · intro f hf
    unfold mapFeatures at hf
    rw [List.mem_map] at hf
    obtain ⟨⟨k, c⟩, hkc, rfl⟩ := hf
    have := get_of_mem _ h1 k c hkc
    rw [h3 k] at this
    simp only [GoMap.get, zero_add] at this
    exact this.symm
  · rw [weightSum_foldl_incr]
    simp [mapFeatures, weightSum]

/-! ## The loop of `extractNgrams` -/

theorem slice_window (text : GoString) (w : Int) (hw : 0 < w) (k : Nat)
    (hk : (k : Int) ≤ len text - w) :
    slice text k (k + w) = some ((text.drop k).take w.toNat) := by
  unfold slice
  rw [if_pos ⟨by omega, by omega, by omega⟩]
  have h1 : ((k : Int)).toNat = k := Int.toNat_natCast k
  have h2 : ((k : Int) + w).toNat - k = w.toNat := by omega
  rw [h1, h2]

/-- The trace of the loop started at index `k`: the windows at `k, k + 1, ...` up to
`len(text) - width`. -/
theorem ngramTrace_eq (text : GoString) (w : Int) :
    ∀ (fuel k : Nat), (len text - w + 1 - k).toNat < fuel →
      ngramTrace text w fuel k
        = some ((List.range' k (len text - w + 1 - k).toNat).map
            (fun i : Nat => ((i : Int), (i : Int) + w))) := by
  intro fuel
  induction fuel with
  | zero => intro k h; omega
  | succ fuel ih =>
    intro k hf
    unfold ngramTrace
    by_cases hc : (k : Int) ≤ len text - w
    · rw [if_pos hc]
      have hn : (len text - w + 1 - k).toNat = (len text - w + 1 - (k + 1 : Nat)).toNat + 1 := by
        omega
      have hrec := ih (k + 1) (by omega)
      have hcast : ((k : Int) + 1) = ((k + 1 : Nat) : Int) := by push_cast; rfl
      rw [hcast, hrec, hn, List.range'_succ]
      simp
    · rw [if_neg hc]
      have hn : (len text - w + 1 - k).toNat = 0 := by omega
      rw [hn]
      simp

/-- The map of the loop started at index `k` with map `m`. -/
theorem ngramLoop_eq (text : GoString) (w : Int) (hw : 0 < w) :
    ∀ (fuel k : Nat) (m : GoMap), (len text - w + 1 - k).toNat < fuel →
      ngramLoop text w fuel k m
        = some (((List.range' k (len text - w + 1 - k).toNat).map
            (fun i => (text.drop i).take w.toNat)).foldl GoMap.incr m) := by
  intro fuel
  induction fuel with
  | zero => intro k m h; omega
  | succ fuel ih =>
    intro k m hf
    unfold ngramLoop
    by_cases hc : (k : Int) ≤ len text - w
    · rw [if_pos hc, slice_window text w hw k hc]
      have hn : (len text - w + 1 - k).toNat = (len text - w + 1 - (k + 1 : Nat)).toNat + 1 := by
        omega
      have hrec := ih (k + 1) (m.incr ((text.drop k).take w.toNat)) (by omega)
      have hcast : ((k : Int) + 1) = ((k + 1 : Nat) : Int) := by push_cast; rfl
      simp only []
      rw [hcast, hrec, hn, List.range'_succ]
      simp
    · rw [if_neg hc]
      have hn : (len text - w + 1 - k).toNat = 0 := by omega
      rw [hn]
      simp

theorem extractNgrams_eq (s : simHash) (text : GoString) :
    extractNgrams s text
      = some (mapFeatures ((shingles text (effectiveWidth s.ngramWidth)).foldl GoMap.incr [])) := by
  unfold extractNgrams shingles
  dsimp only
  have hw := effectiveWidth_pos s.ngramWidth
  have h := ngramLoop_eq text _ hw (text.length + 1) 0 []
    (by unfold len; push_cast; omega)
  simp only [Nat.cast_zero, sub_zero] at h
  rw [h, List.range_eq_range']
  rfl

/-! ## The claims on n-gram extraction -/

theorem shingles_infix (text : GoString) (w : Int) : ∀ v ∈ shingles text w, v <:+: text := by
  intro v hv
  unfold shingles at hv
  rw [List.mem_map] at hv
  obtain ⟨i, _, rfl⟩ := hv
  exact (List.take_prefix _ _).isInfix.trans (List.drop_suffix _ _).isInfix

theorem shingles_length (text : GoString) (w : Int) :
    ((shingles text w).length : Int) = max 0 (len text - w + 1) := by
  unfold shingles
  rw [List.length_map, List.length_range]
  omega

/-- Claim C16: n-gram extraction is exact raw shingling. For every configuration
and text, with `w` the effective width, `extractNgrams` returns features with
pairwise distinct values; the values are exactly the substrings
`text[i : i+w]` for `0 ≤ i ≤ len(text) - w`; each weight is the number of
start indices yielding that substring; the weights sum to
`len(text) - w + 1` when `len(text) ≥ w`; the values are verbatim pieces of
the text (no case folding); and the result depends on the configuration
through the n-gram width only, not through `stopWords` or
`minTokenLength`. -/
theorem ngram_shingling (s : simHash) (text : GoString) :
    ∃ fs, extractNgrams s text = some fs ∧
      (fs.map (fun f => f.value)).Nodup ∧
      (∀ v, v ∈ fs.map (fun f => f.value) ↔ v ∈ shingles text (effectiveWidth s.ngramWidth)) ∧
      (∀ v, v ∈ shingles text (effectiveWidth s.ngramWidth) ↔
        ∃ i : Nat, (i : Int) ≤ len text - effectiveWidth s.ngramWidth ∧
          slice text i (i + effectiveWidth s.ngramWidth) = some v) ∧
      (∀ f ∈ fs,
        f.weight = ((shingles text (effectiveWidth s.ngramWidth)).count f.value : Int)) ∧
      (len text ≥ effectiveWidth s.ngramWidth →
        weightSum fs = len text - effectiveWidth s.ngramWidth + 1) ∧
      (∀ f ∈ fs, f.value <:+: text) ∧
      (∀ (stopWords : List GoString) (minTokenLength : Int),
        extractNgrams { s with stopWords := stopWords, minTokenLength := minTokenLength } text
          = some fs) := by
  have hw := effectiveWidth_pos s.ngramWidth
  obtain ⟨h1, h2, h3, h4⟩ := mapFeatures_count (shingles text (effectiveWidth s.ngramWidth))
  refine ⟨_, extractNgrams_eq s text, h1, h2, ?_, h3, ?_, ?_, ?_⟩
  · intro v
    unfold shingles
    rw [List.mem_map]
    constructor
    · rintro ⟨i, hi, rfl⟩
      rw [List.mem_range] at hi
      have hi' : (i : Int) ≤ len text - effectiveWidth s.ngramWidth := by omega
      exact ⟨i, hi', slice_window text _ hw i hi'⟩
    · rintro ⟨i, hi, hs⟩
      rw [slice_window text _ hw i hi] at hs
      refine ⟨i, ?_, Option.some.inj hs⟩
      rw [List.mem_range]
      omega
  · intro hge
    rw [h4]
    have := shingles_length text (effectiveWidth s.ngramWidth)
    omega
  · intro f hf
    apply shingles_infix text (effectiveWidth s.ngramWidth)
    exact (h2 f.value).1 (List.mem_map.2 ⟨f, hf, rfl⟩)
  · intro sw ml
    exact extractNgrams_eq _ text

/-- Claim C20: n-gram slicing never goes out of range and the loop terminates.
For every text and every width, with `w` the effective width, the loop of
`extractNgrams` evaluates exactly the slices `text[i : i+w]` for
`i = 0, 1, ...`, `max(0, len(text) - w + 1)` of them, each with `0 ≤ i` and
`i + w ≤ len(text)`; it evaluates none when `len(text) - w` is negative; and
`extractNgrams` returns the features of the map counting these slices. -/
theorem ngram_loop_safe (s : simHash) (text : GoString) :
    ∃ tr, ngramTrace text (effectiveWidth s.ngramWidth) (text.length + 1) 0 = some tr ∧
      tr = (List.range (len text - effectiveWidth s.ngramWidth + 1).toNat).map
        (fun i : Nat => ((i : Int), (i : Int) + effectiveWidth s.ngramWidth)) ∧
      (∀ p ∈ tr, 0 ≤ p.1 ∧ p.2 = p.1 + effectiveWidth s.ngramWidth ∧ p.2 ≤ len text ∧
        ∃ ngram, slice text p.1 p.2 = some ngram) ∧
      (tr.length : Int) = max 0 (len text - effectiveWidth s.ngramWidth + 1) ∧
      (len text - effectiveWidth s.ngramWidth < 0 → tr = []) ∧
      extractNgrams s text = some (mapFeatures
        ((tr.filterMap (fun p => slice text p.1 p.2)).foldl GoMap.incr [])) := by
  have hw := effectiveWidth_pos s.ngramWidth
  have ht := ngramTrace_eq text (effectiveWidth s.ngramWidth) (text.length + 1) 0
    (by unfold len; push_cast; omega)
  simp only [Nat.cast_zero, sub_zero] at ht
  rw [← List.range_eq_range'] at ht
  refine ⟨_, ht, rfl, ?_, ?_, ?_, ?_⟩
  · intro p hp
    rw [List.mem_map] at hp
    obtain ⟨i, hi, rfl⟩ := hp
    rw [List.mem_range] at hi
    have hi' : (i : Int) ≤ len text - effectiveWidth s.ngramWidth := by omega
    exact ⟨by omega, rfl, by dsimp only; omega, _, slice_window text _ hw i hi'⟩
  · rw [List.length_map, List.length_range]
    omega
  · intro hneg
    have : (len text - effectiveWidth s.ngramWidth + 1).toNat = 0 := by omega
    rw [this]
    rfl
  · rw [extractNgrams_eq]
    congr 3
    unfold shingles
    rw [List.filterMap_map]
    symm
    rw [← List.filterMap_eq_map]
    apply List.filterMap_congr
    intro i hi
    rw [List.mem_range] at hi
    simp only [Function.comp]
    exact slice_window text _ hw i (by omega)

/-! ## The claims on word-mode extraction -/

theorem foldl_countToken_eq (T : UnicodeTables) (s : simHash) (tokens : List GoString) :
    ∀ m : GoMap, tokens.foldl (countToken T s) m
      = ((tokens.map (ToLower T)).filter
          (fun t => !Contains s.stopWords t && decide (len t > s.minTokenLength))).foldl
          GoMap.incr m := by
  induction tokens with
  | nil => intro m; rfl
  | cons tok tokens ih =>
    intro m
    rw [List.foldl_cons, List.map_cons, List.filter_cons]
    unfold countToken
    dsimp only
    split
    · rw [List.foldl_cons]
      exact ih _
    · exact ih _

theorem extractTokens_eq (T : UnicodeTables) (s : simHash) (text : GoString) :
    extractTokens T s text = mapFeatures ((survivingTokens T s text).foldl GoMap.incr []) := by
  unfold extractTokens survivingTokens loweredTokens
  dsimp only
  rw [foldl_countToken_eq]

theorem mem_survivingTokens (T : UnicodeTables) (s : simHash) (text : GoString) (v : GoString) :
    v ∈ survivingTokens T s text ↔
      v ∈ loweredTokens T text ∧ v ∉ s.stopWords ∧ len v > s.minTokenLength := by
  unfold survivingTokens
  rw [List.mem_filter]
  simp [Contains]

theorem count_survivingTokens (T : UnicodeTables) (s : simHash) (text : GoString)
    (v : GoString) (hv : v ∈ survivingTokens T s text) :
    (survivingTokens T s text).count v = (loweredTokens T text).count v := by
  unfold survivingTokens at hv ⊢
  rw [List.mem_filter] at hv
  exact List.count_filter hv.2

theorem RuneCountInString_le (s : GoString) : (RuneCountInString s : Int) ≤ len s := by
  unfold RuneCountInString runes len
  exact_mod_cast runesAux_length _ _

theorem RuneCountInString_ascii (s : GoString) (h : isASCII s = true) :
    (RuneCountInString s : Int) = len s := by
  unfold RuneCountInString len
  rw [runes_ascii s ((isASCII_iff s).1 h), List.length_map]

/-- The values of the features of `extractTokens` are the lower-cased tokens that are no
stop words and are longer than `minTokenLength`. -/
theorem extractTokens_values (T : UnicodeTables) (s : simHash) (text : GoString)
    (v : GoString) :
    v ∈ (extractTokens T s text).map (fun f => f.value) ↔
      (v ∈ (tokenize T text).map (ToLower T) ∧ v ∉ s.stopWords ∧ len v > s.minTokenLength) := by
  obtain ⟨_, h2, _, _⟩ := mapFeatures_count (survivingTokens T s text)
  rw [← extractTokens_eq] at h2
  rw [h2 v, mem_survivingTokens]
  rfl

/-- Claim C14: word-mode extraction merges duplicates and counts occurrences.
The features returned by `extractTokens` have pairwise distinct values; the
values are exactly the lower-cased tokens that are not in `stopWords` and are
longer than `minTokenLength`; and every weight is at least 1 and equals the
number of tokens of the text whose lower-cased form is the feature's value. -/
theorem extractTokens_counts (T : UnicodeTables) (s : simHash) (text : GoString) :
    ((extractTokens T s text).map (fun f => f.value)).Nodup ∧
    (∀ v, v ∈ (extractTokens T s text).map (fun f => f.value) ↔
      (v ∈ (tokenize T text).map (ToLower T) ∧ v ∉ s.stopWords ∧ len v > s.minTokenLength)) ∧
    (∀ f ∈ extractTokens T s text,
      1 ≤ f.weight ∧
      f.weight = ((((tokenize T text).map (ToLower T)).count f.value : Nat) : Int) ∧
      f.weight = ((((tokenize T text).filter (fun tok => ToLower T tok = f.value)).length
        : Nat) : Int)) := by
  obtain ⟨h1, h2, h3, _⟩ := mapFeatures_count (survivingTokens T s text)
  rw [← extractTokens_eq] at h1 h2 h3
  refine ⟨h1, ?_, ?_⟩
  · intro v
    rw [h2 v, mem_survivingTokens]
    rfl
  · intro f hf
    have hv : f.value ∈ survivingTokens T s text :=
      (h2 f.value).1 (List.mem_map.2 ⟨f, hf, rfl⟩)
    have hc := count_survivingTokens T s text f.value hv
    have hpos : 0 < (survivingTokens T s text).count f.value := List.count_pos_iff.2 hv
    have hw := h3 f hf
    have hcnt : ((tokenize T text).map (ToLower T)).count f.value
        = ((tokenize T text).filter (fun tok => ToLower T tok = f.value)).length := by
      rw [List.count, List.countP_map, List.countP_eq_length_filter]
      congr 1
      apply List.filter_congr
      intro x _
      show (ToLower T x == f.value) = decide (ToLower T x = f.value)
      by_cases hx : ToLower T x = f.value
      · simp [hx]
      · simp [hx]
    refine ⟨by omega, ?_, ?_⟩
    · rw [hw, hc]; rfl
    · rw [hw, hc]; unfold loweredTokens; rw [hcnt]

/-- Claim C13, as amended: the minimum-length filter is strict and counts the bytes
of the lower-cased token (Go `len`), which for a token of ASCII characters is
its number of characters. A lower-cased token of exactly `minTokenLength`
bytes, or fewer, is dropped and contributes no feature; one that is longer and
is no stop word is a feature. -/
theorem min_length_filter (T : UnicodeTables) (s : simHash) (text : GoString)
    (tok : GoString) (htok : tok ∈ tokenize T text) :
    (len (ToLower T tok) ≤ s.minTokenLength →
      ∀ f ∈ extractTokens T s text, f.value ≠ ToLower T tok) ∧
    (len (ToLower T tok) > s.minTokenLength → ToLower T tok ∉ s.stopWords →
      ∃ f ∈ extractTokens T s text, f.value = ToLower T tok) ∧
    (isASCII (ToLower T tok) = true →
      (RuneCountInString (ToLower T tok) : Int) = len (ToLower T tok)) ∧
    (RuneCountInString (ToLower T tok) : Int) ≤ len (ToLower T tok) := by
  have h2 := extractTokens_values T s text
  refine ⟨?_, ?_, RuneCountInString_ascii _, RuneCountInString_le _⟩
  · intro hle f hf hfv
    have := (h2 f.value).1 (List.mem_map.2 ⟨f, hf, rfl⟩)
    rw [hfv] at this
    omega
  · intro hgt hns
    have := (h2 (ToLower T tok)).2 ⟨List.mem_map.2 ⟨tok, htok, rfl⟩, hns, hgt⟩
    rw [List.mem_map] at this
    obtain ⟨f, hf, hfv⟩ := this
    exact ⟨f, hf, hfv⟩

/-- Claim C13, an instance of the amended statement: with `minTokenLength` 3 the
token `cat` of `a an the cat sat`, of exactly 3 bytes, contributes no
feature. -/
theorem min_length_filter_witness :
    str "cat" ∈ tokenize asciiTables (str "a an the cat sat") ∧
    len (ToLower asciiTables (str "cat")) ≤ (applyOptions [WithMinTokenLength 3]).minTokenLength ∧
    ∀ f ∈ extractTokens asciiTables (applyOptions [WithMinTokenLength 3])
        (str "a an the cat sat"),
      f.value ≠ ToLower asciiTables (str "cat") :=
  ⟨by decide, by decide,
    (min_length_filter asciiTables (applyOptions [WithMinTokenLength 3])
      (str "a an the cat sat") (str "cat") (by decide)).1 (by decide)⟩

/-- Claim C13 fails as stated: under default options (`minTokenLength` 2) the token
`éé` has exactly 2 characters, but `len` counts its 4 bytes, so it is not
dropped: it is the one feature of the text `éé`, whose fingerprint is not 0.
(The letter `é`, U+00E9, is lower case, as in `asciiTables`.) -/
theorem min_length_bytes_counterexample :
    str "éé" ∈ tokenize asciiTables (str "éé") ∧
    RuneCountInString (ToLower asciiTables (str "éé")) = 2 ∧
    (applyOptions []).minTokenLength = 2 ∧
    len (ToLower asciiTables (str "éé")) = 4 ∧
    extractTokens asciiTables (applyOptions []) (str "éé")
      = [{ value := ToLower asciiTables (str "éé"), weight := 1 }] ∧
    NewSimHash asciiTables (str "éé") [] = some 892736668640368282 := by
  decide

/-! ## UTF-8: decoding undoes encoding -/

theorem or_mul_pow (k a b : Nat) (hb : b < 2 ^ k) : (2 ^ k * a) ||| b = 2 ^ k * a + b :=
  (Nat.mul_add_lt_is_or hb a).symm

theorem and_3F (x : Nat) : x &&& 0x3F = x % 64 := Nat.and_pow_two_sub_one_eq_mod x 6

theorem and_1F (x : Nat) : x &&& 0x1F = x % 32 := Nat.and_pow_two_sub_one_eq_mod x 5

theorem and_0F (x : Nat) : x &&& 0x0F = x % 16 := Nat.and_pow_two_sub_one_eq_mod x 4

theorem and_07 (x : Nat) : x &&& 0x07 = x % 8 := Nat.and_pow_two_sub_one_eq_mod x 3

theorem val2 (x b : Nat) : ((x &&& 0x1F) <<< 6) ||| (b &&& 0x3F) = x % 32 * 64 + b % 64 := by
  rw [and_1F, and_3F, Nat.shiftLeft_eq]
  have h := or_mul_pow 6 (x % 32) (b % 64) (by omega)
  have e : x % 32 * 2 ^ 6 = 2 ^ 6 * (x % 32) := Nat.mul_comm _ _
  rw [e, h]
  omega

theorem val3 (x b c : Nat) :
    ((x &&& 0x0F) <<< 12) ||| ((b &&& 0x3F) <<< 6) ||| (c &&& 0x3F)
      = x % 16 * 4096 + b % 64 * 64 + c % 64 := by
  rw [and_0F, and_3F, and_3F, Nat.shiftLeft_eq, Nat.shiftLeft_eq]
  have h1 := or_mul_pow 12 (x % 16) (b % 64 * 2 ^ 6) (by omega)
  have e1 : x % 16 * 2 ^ 12 = 2 ^ 12 * (x % 16) := Nat.mul_comm _ _
  rw [e1, h1]
  have h2 := or_mul_pow 6 (x % 16 * 64 + b % 64) (c % 64) (by omega)
  have e2 : 2 ^ 12 * (x % 16) + b % 64 * 2 ^ 6 = 2 ^ 6 * (x % 16 * 64 + b % 64) := by omega
  rw [e2, h2]
  omega

theorem val4 (x b c d : Nat) :
    ((x &&& 0x07) <<< 18) ||| ((b &&& 0x3F) <<< 12) ||| ((c &&& 0x3F) <<< 6) ||| (d &&& 0x3F)
      = x % 8 * 262144 + b % 64 * 4096 + c % 64 * 64 + d % 64 := by
  rw [and_07, and_3F, and_3F, and_3F, Nat.shiftLeft_eq, Nat.shiftLeft_eq, Nat.shiftLeft_eq]
  have h1 := or_mul_pow 18 (x % 8) (b % 64 * 2 ^ 12) (by omega)
  have e1 : x % 8 * 2 ^ 18 = 2 ^ 18 * (x % 8) := Nat.mul_comm _ _
  rw [e1, h1]
  have h2 := or_mul_pow 12 (x % 8 * 64 + b % 64) (c % 64 * 2 ^ 6) (by omega)
  have e2 : 2 ^ 18 * (x % 8) + b % 64 * 2 ^ 12 = 2 ^ 12 * (x % 8 * 64 + b % 64) := by omega
  rw [e2, h2]
  have h3 := or_mul_pow 6 (x % 8 * 4096 + b % 64 * 64 + c % 64) (d % 64) (by omega)
  have e3 : 2 ^ 12 * (x % 8 * 64 + b % 64) + c % 64 * 2 ^ 6
      = 2 ^ 6 * (x % 8 * 4096 + b % 64 * 64 + c % 64) := by omega
  rw [e3, h3]
  omega

theorem or_80 (y : Nat) : 0x80 ||| (y &&& 0x3F) = 0x80 + y % 64 := by
  rw [and_3F]
  have h := or_mul_pow 6 2 (y % 64) (by omega)
  simpa using h

theorem or_C0 (r : Nat) (h : r < 4096) : 0xC0 ||| (r >>> 6) = 0xC0 + r / 64 := by
  rw [Nat.shiftRight_eq_div_pow]
  have h := or_mul_pow 6 3 (r / 2 ^ 6) (by omega)
  simpa using h

theorem or_E0 (r : Nat) (h : r < 65536) : 0xE0 ||| (r >>> 12) = 0xE0 + r / 4096 := by
  rw [Nat.shiftRight_eq_div_pow]
  have h := or_mul_pow 4 14 (r / 2 ^ 12) (by omega)
  simpa using h

theorem or_F0 (r : Nat) (h : r < 2097152) : 0xF0 ||| (r >>> 18) = 0xF0 + r / 262144 := by
  rw [Nat.shiftRight_eq_div_pow]
  have h := or_mul_pow 3 30 (r / 2 ^ 18) (by omega)
  simpa using h

theorem toNat_ofNat (n : Nat) : (UInt8.ofNat n).toNat = n % 256 := rfl


theorem inRange_iff (b : UInt8) (lo hi : Nat) :
    inRange b lo hi = true ↔ lo ≤ b.toNat ∧ b.toNat ≤ hi := by
  simp [inRange]

theorem Decode_1 (b0 : UInt8) (rest : GoString) (h0 : b0.toNat < 0x80) :
    DecodeRuneInString (b0 :: rest) = (b0.toNat, 1) := by
  unfold DecodeRuneInString
  dsimp only
  rw [if_pos h0]

theorem Decode_2 (b0 b1 : UInt8) (rest : GoString)
    (h0 : 0xC2 ≤ b0.toNat ∧ b0.toNat < 0xE0) (h1 : 0x80 ≤ b1.toNat ∧ b1.toNat ≤ 0xBF) :
    DecodeRuneInString (b0 :: b1 :: rest) = (b0.toNat % 32 * 64 + b1.toNat % 64, 2) := by
  unfold DecodeRuneInString
  dsimp only
  rw [if_neg (by omega), if_neg (by omega), if_pos (by omega),
    if_pos ((inRange_iff _ _ _).2 h1), contBits, val2]

theorem Decode_3 (b0 b1 b2 : UInt8) (rest : GoString)
    (h0 : 0xE0 ≤ b0.toNat ∧ b0.toNat < 0xF0)
    (h1 : (if b0.toNat = 0xE0 then 0xA0 else 0x80) ≤ b1.toNat ∧
      b1.toNat ≤ (if b0.toNat = 0xED then 0x9F else 0xBF))
    (h2 : 0x80 ≤ b2.toNat ∧ b2.toNat ≤ 0xBF) :
    DecodeRuneInString (b0 :: b1 :: b2 :: rest)
      = (b0.toNat % 16 * 4096 + b1.toNat % 64 * 64 + b2.toNat % 64, 3) := by
  unfold DecodeRuneInString
  dsimp only
  have hc : (inRange b1 (if b0.toNat = 0xE0 then 0xA0 else 0x80)
      (if b0.toNat = 0xED then 0x9F else 0xBF) && inRange b2 0x80 0xBF) = true := by
    rw [Bool.and_eq_true]
    exact ⟨(inRange_iff _ _ _).2 h1, (inRange_iff _ _ _).2 h2⟩
  rw [if_neg (by omega), if_neg (by omega), if_neg (by omega), if_pos (by omega),
    if_pos hc, contBits, contBits, val3]

theorem Decode_4 (b0 b1 b2 b3 : UInt8) (rest : GoString)
    (h0 : 0xF0 ≤ b0.toNat ∧ b0.toNat < 0xF5)
    (h1 : (if b0.toNat = 0xF0 then 0x90 else 0x80) ≤ b1.toNat ∧
      b1.toNat ≤ (if b0.toNat = 0xF4 then 0x8F else 0xBF))
    (h2 : 0x80 ≤ b2.toNat ∧ b2.toNat ≤ 0xBF) (h3 : 0x80 ≤ b3.toNat ∧ b3.toNat ≤ 0xBF) :
    DecodeRuneInString (b0 :: b1 :: b2 :: b3 :: rest)
      = (b0.toNat % 8 * 262144 + b1.toNat % 64 * 4096 + b2.toNat % 64 * 64 + b3.toNat % 64,
          4) := by
  unfold DecodeRuneInString
  dsimp only
  have hc : (inRange b1 (if b0.toNat = 0xF0 then 0x90 else 0x80)
      (if b0.toNat = 0xF4 then 0x8F else 0xBF) && inRange b2 0x80 0xBF
      && inRange b3 0x80 0xBF) = true := by
    rw [Bool.and_eq_true, Bool.and_eq_true]
    exact ⟨⟨(inRange_iff _ _ _).2 h1, (inRange_iff _ _ _).2 h2⟩, (inRange_iff _ _ _).2 h3⟩
  rw [if_neg (by omega), if_neg (by omega), if_neg (by omega), if_neg (by omega),
    if_pos (by omega), if_pos hc, contBits, contBits, contBits, val4]

/-- Decoding undoes encoding: a valid rune is read back from its encoding, whatever
follows it. -/
theorem Decode_encodeRune (r : Nat) (hr : ValidRune r = true) (rest : GoString) :
    DecodeRuneInString (encodeRune r ++ rest) = (r, (encodeRune r).length) := by
  simp only [ValidRune, Bool.and_eq_true, Bool.not_eq_true', Bool.and_eq_false_iff,
    decide_eq_true_eq, decide_eq_false_iff_not] at hr
  unfold encodeRune
  by_cases h1 : r ≤ 0x7F
  · rw [if_pos h1]
    have e : (UInt8.ofNat r).toNat = r := by rw [toNat_ofNat]; omega
    rw [List.singleton_append, Decode_1 _ _ (by omega), e]
    rfl
  · rw [if_neg h1]
    by_cases h2 : r ≤ 0x7FF
    · rw [if_pos h2]
      have e0 : (UInt8.ofNat (0xC0 ||| (r >>> 6))).toNat = 0xC0 + r / 64 := by
        rw [toNat_ofNat, or_C0 r (by omega)]; omega
      have e1 : (UInt8.ofNat (0x80 ||| (r &&& 0x3F))).toNat = 0x80 + r % 64 := by
        rw [toNat_ofNat, or_80]; omega
      rw [List.cons_append, List.cons_append, List.nil_append,
        Decode_2 _ _ _ (by omega) (by omega), e0, e1]
      simp only [List.length_cons, List.length_nil, Prod.mk.injEq, and_true]
      omega
    · rw [if_neg h2]
      have h3 : ¬ (0x10FFFF < r ∨ (0xD800 ≤ r ∧ r ≤ 0xDFFF)) := by omega
      rw [if_neg h3]
      by_cases h4 : r ≤ 0xFFFF
      · rw [if_pos h4]
        have e0 : (UInt8.ofNat (0xE0 ||| (r >>> 12))).toNat = 0xE0 + r / 4096 := by
          rw [toNat_ofNat, or_E0 r (by omega)]; omega
        have e1 : (UInt8.ofNat (0x80 ||| ((r >>> 6) &&& 0x3F))).toNat = 0x80 + r / 64 % 64 := by
          rw [toNat_ofNat, or_80, Nat.shiftRight_eq_div_pow]; omega
        have e2 : (UInt8.ofNat (0x80 ||| (r &&& 0x3F))).toNat = 0x80 + r % 64 := by
          rw [toNat_ofNat, or_80]; omega
        rw [List.cons_append, List.cons_append, List.cons_append, List.nil_append,
          Decode_3 _ _ _ _ (by omega) (by rw [e0, e1]; split <;> split <;> omega) (by omega),
          e0, e1, e2]
        simp only [List.length_cons, List.length_nil, Prod.mk.injEq, and_true]
        omega
      · rw [if_neg h4]
        have e0 : (UInt8.ofNat (0xF0 ||| (r >>> 18))).toNat = 0xF0 + r / 262144 := by
          rw [toNat_ofNat, or_F0 r (by omega)]; omega
        have e1 : (UInt8.ofNat (0x80 ||| ((r >>> 12) &&& 0x3F))).toNat
            = 0x80 + r / 4096 % 64 := by
          rw [toNat_ofNat, or_80, Nat.shiftRight_eq_div_pow]; omega
        have e2 : (UInt8.ofNat (0x80 ||| ((r >>> 6) &&& 0x3F))).toNat = 0x80 + r / 64 % 64 := by
          rw [toNat_ofNat, or_80, Nat.shiftRight_eq_div_pow]; omega
        have e3 : (UInt8.ofNat (0x80 ||| (r &&& 0x3F))).toNat = 0x80 + r % 64 := by
          rw [toNat_ofNat, or_80]; omega
        rw [List.cons_append, List.cons_append, List.cons_append, List.cons_append,
          List.nil_append,
          Decode_4 _ _ _ _ _ (by omega) (by rw [e0, e1]; split <;> split <;> omega) (by omega)
            (by omega), e0, e1, e2, e3]
        simp only [List.length_cons, List.length_nil, Prod.mk.injEq, and_true]
        omega


theorem ValidRune_iff (r : Nat) :
    ValidRune r = true ↔ r ≤ 0x10FFFF ∧ ¬ (0xD800 ≤ r ∧ r ≤ 0xDFFF) := by
  simp only [ValidRune, Bool.and_eq_true, Bool.not_eq_true', Bool.and_eq_false_iff,
    decide_eq_true_eq, decide_eq_false_iff_not]
  omega

/-- Every rune read by the decoder is valid: a code point that is no surrogate. -/
theorem Decode_valid (s : GoString) : ValidRune (DecodeRuneInString s).1 = true := by
  rw [ValidRune_iff]
  rcases s with _ | ⟨b0, _ | ⟨b1, _ | ⟨b2, _ | ⟨b3, rest⟩⟩⟩⟩
  all_goals simp only [DecodeRuneInString]
  all_goals try split_ifs
  all_goals simp only [RuneError, contBits, val2, val3, val4, Bool.and_eq_true, inRange_iff] at *
  all_goals omega


theorem runes_encodeRune_append (r : Nat) (hr : ValidRune r = true) (rest : GoString) :
    runes (encodeRune r ++ rest) = r :: runes rest := by
  have hne := encodeRune_ne_nil r
  cases he : encodeRune r with
  | nil => exact absurd he hne
  | cons b bs =>
    rw [List.cons_append, runes_cons, ← List.cons_append, ← he, Decode_encodeRune r hr rest]
    simp only [List.drop_left]

theorem runes_encodeRunes_append (rs : List Nat) (h : ∀ r ∈ rs, ValidRune r = true)
    (rest : GoString) : runes (encodeRunes rs ++ rest) = rs ++ runes rest := by
  induction rs with
  | nil => rfl
  | cons r rs ih =>
    unfold encodeRunes at ih ⊢
    rw [List.flatMap_cons, List.append_assoc,
      runes_encodeRune_append r (h r (List.mem_cons_self _ _)),
      ih (fun r' hr' => h r' (List.mem_cons_of_mem _ hr'))]
    rfl

/-- Decoding undoes encoding on sequences of valid runes. -/
theorem runes_encodeRunes (rs : List Nat) (h : ∀ r ∈ rs, ValidRune r = true) :
    runes (encodeRunes rs) = rs := by
  have := runes_encodeRunes_append rs h []
  simpa [runes_nil] using this

/-- Every rune of a text is valid. -/
theorem runes_valid (s : GoString) : ∀ r ∈ runes s, ValidRune r = true := by
  have key : ∀ (n : Nat) (s : GoString), s.length ≤ n → ∀ r ∈ runes s, ValidRune r = true := by
    intro n
    induction n with
    | zero =>
      intro s hs r hr
      have : s = [] := List.length_eq_zero.1 (by omega)
      subst this
      cases hr
    | succ n ih =>
      intro s hs r hr
      cases s with
      | nil => cases hr
      | cons b bs =>
        rw [runes_cons] at hr
        rcases List.mem_cons.1 hr with h | h
        · rw [h]; exact Decode_valid _
        · have hw := DecodeRuneInString_width b bs
          refine ih _ ?_ r h
          rw [List.length_drop]
          simp only [List.length_cons] at hs hw ⊢
          omega
  exact key s.length s (le_refl _)

theorem Decode_err (b0 : UInt8) (rest : GoString)
    (h : (0x80 ≤ b0.toNat ∧ b0.toNat < 0xC2) ∨ 0xF5 ≤ b0.toNat) :
    DecodeRuneInString (b0 :: rest) = (RuneError, 1) := by
  unfold DecodeRuneInString
  dsimp only
  rcases h with h | h
  · rw [if_neg (by omega), if_pos (by omega)]
  · rw [if_neg (by omega), if_neg (by omega), if_neg (by omega), if_neg (by omega),
      if_neg (by omega)]

theorem Decode_lead2 (b0 : UInt8) (rest : GoString) (h : 0xC2 ≤ b0.toNat ∧ b0.toNat < 0xE0) :
    DecodeRuneInString (b0 :: rest) =
      match rest with
      | b1 :: _ =>
        if inRange b1 0x80 0xBF then (((b0.toNat &&& 0x1F) <<< 6) ||| contBits b1, 2)
        else (RuneError, 1)
      | _ => (RuneError, 1) := by
  unfold DecodeRuneInString
  dsimp only
  rw [if_neg (by omega), if_neg (by omega), if_pos (by omega)]
  rcases rest with _ | ⟨b1, rest⟩ <;> rfl

theorem Decode_lead3 (b0 : UInt8) (rest : GoString) (h : 0xE0 ≤ b0.toNat ∧ b0.toNat < 0xF0) :
    DecodeRuneInString (b0 :: rest) =
      match rest with
      | b1 :: b2 :: _ =>
        if inRange b1 (if b0.toNat = 0xE0 then 0xA0 else 0x80)
            (if b0.toNat = 0xED then 0x9F else 0xBF) && inRange b2 0x80 0xBF then
          (((b0.toNat &&& 0x0F) <<< 12) ||| (contBits b1 <<< 6) ||| contBits b2, 3)
        else (RuneError, 1)
      | _ => (RuneError, 1) := by
  unfold DecodeRuneInString
  dsimp only
  rw [if_neg (by omega), if_neg (by omega), if_neg (by omega), if_pos (by omega)]
  rcases rest with _ | ⟨b1, _ | ⟨b2, rest⟩⟩ <;> rfl

theorem Decode_lead4 (b0 : UInt8) (rest : GoString) (h : 0xF0 ≤ b0.toNat ∧ b0.toNat < 0xF5) :
    DecodeRuneInString (b0 :: rest) =
      match rest with
      | b1 :: b2 :: b3 :: _ =>
        if inRange b1 (if b0.toNat = 0xF0 then 0x90 else 0x80)
            (if b0.toNat = 0xF4 then 0x8F else 0xBF) && inRange b2 0x80 0xBF
            && inRange b3 0x80 0xBF then
          (((b0.toNat &&& 0x07) <<< 18) ||| (contBits b1 <<< 12) ||| (contBits b2 <<< 6)
            ||| contBits b3, 4)
        else (RuneError, 1)
      | _ => (RuneError, 1) := by
  unfold DecodeRuneInString
  dsimp only
  rw [if_neg (by omega), if_neg (by omega), if_neg (by omega), if_neg (by omega),
    if_pos (by omega)]
  rcases rest with _ | ⟨b1, _ | ⟨b2, _ | ⟨b3, rest⟩⟩⟩ <;> rfl

theorem inRange_sub (c : UInt8) (lo hi : Nat) (hlo : 0x80 ≤ lo) (hhi : hi ≤ 0xBF)
    (hc : inRange c 0x80 0xBF = false) : inRange c lo hi = false := by
  cases h : inRange c lo hi
  · rfl
  · rw [inRange_iff] at h
    have : inRange c 0x80 0xBF = true := (inRange_iff _ _ _).2 ⟨by omega, by omega⟩
    rw [hc] at this
    cases this

/-- The decoder reads the same first rune from a text, whatever is appended at a rune
boundary. -/
theorem Decode_append (b0 : UInt8) (p s : GoString) (hs : startsRune s = true) :
    DecodeRuneInString ((b0 :: p) ++ s) = DecodeRuneInString (b0 :: p) := by
  rw [List.cons_append]
  by_cases h1 : b0.toNat < 0x80
  · rw [Decode_1 _ _ h1, Decode_1 _ _ h1]
  by_cases h2 : b0.toNat < 0xC2
  · rw [Decode_err _ _ (Or.inl ⟨by omega, h2⟩), Decode_err _ _ (Or.inl ⟨by omega, h2⟩)]
  by_cases h3 : b0.toNat < 0xE0
  · rw [Decode_lead2 _ _ ⟨by omega, h3⟩, Decode_lead2 _ _ ⟨by omega, h3⟩]
    rcases p with _ | ⟨b1, p'⟩
    · rcases s with _ | ⟨c, s'⟩
      · rfl
      · simp only [startsRune, Bool.not_eq_true'] at hs
        simp only [List.nil_append, hs, Bool.false_eq_true, if_false]
    · rfl
  by_cases h4 : b0.toNat < 0xF0
  · rw [Decode_lead3 _ _ ⟨by omega, h4⟩, Decode_lead3 _ _ ⟨by omega, h4⟩]
    have hlo : 0x80 ≤ (if b0.toNat = 0xE0 then 0xA0 else 0x80) := by split <;> omega
    have hhi : (if b0.toNat = 0xED then 0x9F else 0xBF) ≤ 0xBF := by split <;> omega
    rcases p with _ | ⟨b1, _ | ⟨b2, p'⟩⟩
    · rcases s with _ | ⟨c, _ | ⟨c2, s'⟩⟩
      · rfl
      · rfl
      · simp only [startsRune, Bool.not_eq_true'] at hs
        simp only [List.nil_append, inRange_sub c _ _ hlo hhi hs, Bool.false_and,
          Bool.false_eq_true, if_false]
    · rcases s with _ | ⟨c, s'⟩
      · rfl
      · simp only [startsRune, Bool.not_eq_true'] at hs
        simp only [List.cons_append, List.nil_append, hs, Bool.and_false,
          Bool.false_eq_true, if_false]
    · rfl
  by_cases h5 : b0.toNat < 0xF5
  · rw [Decode_lead4 _ _ ⟨by omega, h5⟩, Decode_lead4 _ _ ⟨by omega, h5⟩]
    have hlo : 0x80 ≤ (if b0.toNat = 0xF0 then 0x90 else 0x80) := by split <;> omega
    have hhi : (if b0.toNat = 0xF4 then 0x8F else 0xBF) ≤ 0xBF := by split <;> omega
    rcases p with _ | ⟨b1, _ | ⟨b2, _ | ⟨b3, p'⟩⟩⟩
    · rcases s with _ | ⟨c, _ | ⟨c2, _ | ⟨c3, s'⟩⟩⟩
      · rfl
      · rfl
      · rfl
      · simp only [startsRune, Bool.not_eq_true'] at hs
        simp only [List.nil_append, inRange_sub c _ _ hlo hhi hs, Bool.false_and,
          Bool.false_eq_true, if_false]
    · rcases s with _ | ⟨c, _ | ⟨c2, s'⟩⟩
      · rfl
      · rfl
      · simp only [startsRune, Bool.not_eq_true'] at hs
        simp only [List.cons_append, List.nil_append, hs, Bool.and_false, Bool.false_and,
          Bool.false_eq_true, if_false]
    · rcases s with _ | ⟨c, s'⟩
      · rfl
      · simp only [startsRune, Bool.not_eq_true'] at hs
        simp only [List.cons_append, List.nil_append, hs, Bool.and_false,
          Bool.false_eq_true, if_false]
    · rfl
  · rw [Decode_err _ _ (Or.inr (by omega)), Decode_err _ _ (Or.inr (by omega))]

/-- The runes of a concatenation at a rune boundary are those of the parts. -/
theorem runes_append (pre s : GoString) (hs : startsRune s = true) :
    runes (pre ++ s) = runes pre ++ runes s := by
  have key : ∀ (n : Nat) (pre : GoString), pre.length ≤ n →
      runes (pre ++ s) = runes pre ++ runes s := by
    intro n
    induction n with
    | zero =>
      intro pre hp
      have : pre = [] := List.length_eq_zero.1 (by omega)
      subst this
      rfl
    | succ n ih =>
      intro pre hp
      cases pre with
      | nil => rfl
      | cons b bs =>
        have hw := DecodeRuneInString_width b bs
        have hd := Decode_append b bs s hs
        rw [List.cons_append, runes_cons, ← List.cons_append, hd, runes_cons b bs,
          List.drop_append_of_le_length hw.2, List.cons_append]
        congr 1
        apply ih
        rw [List.length_drop]
        simp only [List.length_cons] at hp hw ⊢
        omega
  exact key pre.length pre (le_refl _)

theorem startsRune_encodeRune (r : Nat) (rest : GoString) :
    startsRune (encodeRune r ++ rest) = true := by
  unfold encodeRune
  split
  · rename_i h
    simp only [List.singleton_append, startsRune, Bool.not_eq_true']
    cases hc : inRange (UInt8.ofNat r) 0x80 0xBF
    · rfl
    · rw [inRange_iff, toNat_ofNat] at hc
      omega
  · split
    · rename_i h1 h2
      simp only [List.cons_append, startsRune, Bool.not_eq_true']
      cases hc : inRange (UInt8.ofNat (0xC0 ||| (r >>> 6))) 0x80 0xBF
      · rfl
      · rw [inRange_iff, toNat_ofNat, or_C0 r (by omega)] at hc
        omega
    · split
      · rfl
      · split
        · rename_i h1 h2 h3 h4
          simp only [List.cons_append, startsRune, Bool.not_eq_true']
          cases hc : inRange (UInt8.ofNat (0xE0 ||| (r >>> 12))) 0x80 0xBF
          · rfl
          · rw [inRange_iff, toNat_ofNat, or_E0 r (by omega)] at hc
            omega
        · rename_i h1 h2 h3 h4
          simp only [List.cons_append, startsRune, Bool.not_eq_true']
          cases hc : inRange (UInt8.ofNat (0xF0 ||| (r >>> 18))) 0x80 0xBF
          · rfl
          · rw [inRange_iff, toNat_ofNat, or_F0 r (by omega)] at hc
            omega

/-! ## Tokens as maximal runs -/

theorem encodeRunes_eq_nil (rs : List Nat) : encodeRunes rs = [] ↔ rs = [] := by
  constructor
  · intro h
    cases rs with
    | nil => rfl
    | cons r rs =>
      unfold encodeRunes at h
      rw [List.flatMap_cons] at h
      have := encodeRune_ne_nil r
      simp only [List.append_eq_nil] at h
      exact absurd h.1 this
  · intro h; subst h; rfl

theorem encodeRunes_append (xs ys : List Nat) :
    encodeRunes (xs ++ ys) = encodeRunes xs ++ encodeRunes ys := by
  unfold encodeRunes
  exact List.flatMap_append xs ys encodeRune

theorem encodeRunes_singleton (r : Nat) : encodeRunes [r] = encodeRune r := by
  simp [encodeRunes]

theorem modifyHead_append_left (cur : List Nat) (r : Nat) (X : List (List Nat)) :
    List.modifyHead (fun l => cur ++ l) (List.modifyHead (List.cons r) X)
      = List.modifyHead (fun l => (cur ++ [r]) ++ l) X := by
  cases X with
  | nil => rfl
  | cons h t => simp

theorem modifyHead_self (X : List (List Nat)) :
    List.modifyHead (fun l => l) X = X := by
  cases X with
  | nil => rfl
  | cons h t => simp

theorem modifyHead_nil_append (X : List (List Nat)) :
    List.modifyHead (fun l => ([] : List Nat) ++ l) X = X := by
  cases X with
  | nil => rfl
  | cons h t => simp

/-- The loop of `tokenize`, started with the tokens `toks` and the current token
holding the runes `cur`, and followed by the final flush. -/
theorem foldl_tokenizeStep_eq (T : UnicodeTables) (rs : List Nat) :
    ∀ (toks : List GoString) (cur : List Nat),
      (if ((rs.foldl (tokenizeStep T) (toks, encodeRunes cur)).2.length > 0) then
          (rs.foldl (tokenizeStep T) (toks, encodeRunes cur)).1
            ++ [(rs.foldl (tokenizeStep T) (toks, encodeRunes cur)).2]
        else (rs.foldl (tokenizeStep T) (toks, encodeRunes cur)).1)
      = toks ++ (((List.modifyHead (fun l => cur ++ l)
          (rs.splitOnP (fun r => !isTokenRune T r))).filter
            (fun run => decide (run ≠ []))).map encodeRunes) := by
  induction rs with
  | nil =>
    intro toks cur
    simp only [List.foldl_nil, List.splitOnP_nil, List.modifyHead_cons, List.append_nil]
    by_cases hc : cur = []
    · subst hc
      simp [encodeRunes]
    · have hne : encodeRunes cur ≠ [] := fun h => hc ((encodeRunes_eq_nil cur).1 h)
      have hlen : (encodeRunes cur).length > 0 := List.length_pos.2 hne
      simp [hc, hlen]
  | cons r rs ih =>
    intro toks cur
    rw [List.foldl_cons, List.splitOnP_cons]
    by_cases hp : isTokenRune T r = true
    · have hstep : tokenizeStep T (toks, encodeRunes cur) r
          = (toks, encodeRunes (cur ++ [r])) := by
        unfold tokenizeStep
        have : (IsLetter T r || IsNumber T r) = true := hp
        rw [if_pos this, encodeRunes_append, encodeRunes_singleton]
      rw [hstep, ih toks (cur ++ [r])]
      simp only [hp, Bool.not_true, Bool.false_eq_true, if_false]
      rw [modifyHead_append_left]
    · have hp' : isTokenRune T r = false := by
        cases h : isTokenRune T r
        · rfl
        · exact absurd h hp
      have hlr : ¬ ((IsLetter T r || IsNumber T r) = true) := hp
      simp only [hp', Bool.not_false, if_true, List.modifyHead_cons, List.append_nil]
      by_cases hc : cur = []
      · subst hc
        have hstep : tokenizeStep T (toks, encodeRunes []) r = (toks, encodeRunes []) := by
          unfold tokenizeStep
          rw [if_neg hlr]
          simp [encodeRunes]
        rw [hstep, ih toks []]
        simp [modifyHead_self]
      · have hne : encodeRunes cur ≠ [] := fun h => hc ((encodeRunes_eq_nil cur).1 h)
        have hlen : (encodeRunes cur).length > 0 := List.length_pos.2 hne
        have hstep : tokenizeStep T (toks, encodeRunes cur) r
            = (toks ++ [encodeRunes cur], encodeRunes []) := by
          unfold tokenizeStep
          rw [if_neg hlr, if_pos hlen]
          rfl
        rw [hstep, ih (toks ++ [encodeRunes cur]) []]
        simp [modifyHead_self, hc]

/-- The tokens are the UTF-8 encodings of the maximal runs of letters and numbers among
the runes of the text. -/
theorem tokenize_eq (T : UnicodeTables) (text : GoString) :
    tokenize T text = (maximalRuns (isTokenRune T) (runes text)).map encodeRunes := by
  have h := foldl_tokenizeStep_eq T (runes text) [] []
  unfold tokenize maximalRuns
  dsimp only
  simp only [List.nil_append, modifyHead_self] at h
  exact h


theorem mem_modifyHead_cons (r : Nat) (X : List (List Nat)) (l : List Nat)
    (h : l ∈ List.modifyHead (List.cons r) X) :
    (∃ l', l' ∈ X ∧ l = r :: l') ∨ l ∈ X := by
  cases X with
  | nil => cases h
  | cons x t =>
    simp only [List.modifyHead_cons, List.mem_cons] at h
    rcases h with h | h
    · exact Or.inl ⟨x, List.mem_cons_self _ _, h⟩
    · exact Or.inr (List.mem_cons_of_mem _ h)

/-- No piece of a split contains a separator. -/
theorem splitOnP_mem (q : Nat → Bool) (rs : List Nat) :
    ∀ l ∈ rs.splitOnP q, ∀ r ∈ l, q r = false := by
  induction rs with
  | nil =>
    intro l hl r hr
    simp only [List.splitOnP_nil, List.mem_singleton] at hl
    subst hl
    cases hr
  | cons x rs ih =>
    intro l hl r hr
    rw [List.splitOnP_cons] at hl
    by_cases hq : q x = true
    · rw [if_pos hq] at hl
      rcases List.mem_cons.1 hl with h | h
      · subst h; cases hr
      · exact ih l h r hr
    · rw [if_neg hq] at hl
      rcases mem_modifyHead_cons x _ l hl with ⟨l', hl', rfl⟩ | h
      · rcases List.mem_cons.1 hr with h | h
        · subst h
          cases hx : q r
          · rfl
          · exact absurd hx hq
        · exact ih l' hl' r h
      · exact ih l h r hr

/-- The pieces of a split, put together, are the elements that are no separators. -/
theorem splitOnP_flatten (q : Nat → Bool) (rs : List Nat) :
    (rs.splitOnP q).flatten = rs.filter (fun r => !q r) := by
  induction rs with
  | nil => simp [List.splitOnP_nil]
  | cons x rs ih =>
    rw [List.splitOnP_cons]
    by_cases hq : q x = true
    · rw [if_pos hq]
      simp [hq, ih]
    · rw [if_neg hq]
      have hq' : q x = false := by
        cases h : q x
        · rfl
        · exact absurd h hq
      have hne := List.splitOnP_ne_nil q rs
      cases hX : rs.splitOnP q with
      | nil => exact absurd hX hne
      | cons h t =>
        rw [hX] at ih
        simp only [List.modifyHead_cons, List.flatten_cons, List.cons_append] at ih ⊢
        rw [ih]
        simp [hq']

theorem splitOnP_append_cons (q : Nat → Bool) (xs ys : List Nat) (s : Nat) (hs : q s = true) :
    (xs ++ s :: ys).splitOnP q = xs.splitOnP q ++ ys.splitOnP q := by
  induction xs with
  | nil =>
    rw [List.nil_append, List.splitOnP_cons, if_pos hs, List.splitOnP_nil]
    rfl
  | cons x xs ih =>
    rw [List.cons_append, List.splitOnP_cons, List.splitOnP_cons, ih]
    by_cases hq : q x = true
    · rw [if_pos hq, if_pos hq]
      rfl
    · rw [if_neg hq, if_neg hq]
      have hne := List.splitOnP_ne_nil q xs
      cases hX : xs.splitOnP q with
      | nil => exact absurd hX hne
      | cons h t => rfl

theorem splitOnP_map_of_pres (f : Nat → Nat) (q : Nat → Bool) (rs : List Nat)
    (h : ∀ r ∈ rs, q (f r) = q r) :
    (rs.map f).splitOnP q = (rs.splitOnP q).map (List.map f) := by
  induction rs with
  | nil => simp [List.splitOnP_nil]
  | cons x rs ih =>
    have hx := h x (List.mem_cons_self _ _)
    have ih' := ih (fun r hr => h r (List.mem_cons_of_mem _ hr))
    rw [List.map_cons, List.splitOnP_cons, List.splitOnP_cons, ih', hx]
    by_cases hq : q x = true
    · rw [if_pos hq, if_pos hq]
      rfl
    · rw [if_neg hq, if_neg hq]
      cases rs.splitOnP q with
      | nil => rfl
      | cons h t => rfl

theorem maximalRuns_nil (p : Nat → Bool) : maximalRuns p [] = [] := by
  simp [maximalRuns, List.splitOnP_nil]

/-- Every maximal run is non-empty and consists of elements satisfying `p`. -/
theorem maximalRuns_mem (p : Nat → Bool) (rs : List Nat) :
    ∀ run ∈ maximalRuns p rs, run ≠ [] ∧ ∀ r ∈ run, p r = true := by
  intro run hrun
  unfold maximalRuns at hrun
  rw [List.mem_filter] at hrun
  refine ⟨by simpa using hrun.2, ?_⟩
  intro r hr
  have := splitOnP_mem _ rs run hrun.1 r hr
  simpa using this

/-- The maximal runs, put together, are the elements satisfying `p`, in order. -/
theorem maximalRuns_flatten (p : Nat → Bool) (rs : List Nat) :
    (maximalRuns p rs).flatten = rs.filter p := by
  unfold maximalRuns
  rw [List.flatten_filter_ne_nil, splitOnP_flatten]
  congr 1
  funext r
  simp

/-- An element that does not satisfy `p` separates the runs on its two sides. -/
theorem maximalRuns_sep (p : Nat → Bool) (xs ys : List Nat) (s : Nat) (hs : p s = false) :
    maximalRuns p (xs ++ s :: ys) = maximalRuns p xs ++ maximalRuns p ys := by
  unfold maximalRuns
  rw [splitOnP_append_cons _ xs ys s (by simp [hs]), List.filter_append]

/-- A non-empty list of elements satisfying `p` is one run. -/
theorem maximalRuns_run (p : Nat → Bool) (run : List Nat) (hne : run ≠ [])
    (h : ∀ r ∈ run, p r = true) : maximalRuns p run = [run] := by
  unfold maximalRuns
  rw [List.splitOnP_eq_single]
  · simp [hne]
  · intro r hr
    simp [h r hr]

theorem maximalRuns_map (f : Nat → Nat) (p : Nat → Bool) (rs : List Nat)
    (h : ∀ r ∈ rs, p (f r) = p r) :
    maximalRuns p (rs.map f) = (maximalRuns p rs).map (List.map f) := by
  unfold maximalRuns
  rw [splitOnP_map_of_pres f _ rs (fun r hr => by rw [h r hr]), List.filter_map]
  congr 1
  apply List.filter_congr
  intro l _
  simp

/-- Removing or inserting separators where a run ends changes no run. -/
theorem maximalRuns_append (p : Nat → Bool) (xs ys : List Nat)
    (h : xs = [] ∨ ys = [] ∨ (∃ xs' d, xs = xs' ++ [d] ∧ p d = false) ∨
      (∃ d ys', ys = d :: ys' ∧ p d = false)) :
    maximalRuns p (xs ++ ys) = maximalRuns p xs ++ maximalRuns p ys := by
  rcases h with h | h | ⟨xs', d, h, hd⟩ | ⟨d, ys', h, hd⟩
  · subst h; simp [maximalRuns_nil]
  · subst h; simp [maximalRuns_nil]
  · subst h
    rw [List.append_assoc, List.singleton_append, maximalRuns_sep p xs' ys d hd,
      maximalRuns_sep p xs' [] d hd, maximalRuns_nil, List.append_nil]
  · subst h
    rw [maximalRuns_sep p xs ys' d hd]
    have := maximalRuns_sep p [] ys' d hd
    rw [List.nil_append, maximalRuns_nil, List.nil_append] at this
    rw [this]

/-! ## The claims on tokenization -/

theorem map_encodeRunes_flatten (R : List (List Nat)) :
    (R.map encodeRunes).flatten = encodeRunes R.flatten := by
  induction R with
  | nil => rfl
  | cons x R ih =>
    rw [List.map_cons, List.flatten_cons, List.flatten_cons, encodeRunes_append, ih]

theorem maximalRuns_sub (p : Nat → Bool) (rs : List Nat) :
    ∀ run ∈ maximalRuns p rs, ∀ r ∈ run, r ∈ rs := by
  intro run hrun r hr
  have h : r ∈ (maximalRuns p rs).flatten := List.mem_flatten.2 ⟨run, hrun, hr⟩
  rw [maximalRuns_flatten] at h
  exact (List.mem_filter.1 h).1

/-- The runes of a token are the run it encodes. -/
theorem runes_token (T : UnicodeTables) (text : GoString) (run : List Nat)
    (hrun : run ∈ maximalRuns (isTokenRune T) (runes text)) :
    runes (encodeRunes run) = run :=
  runes_encodeRunes run (fun r hr =>
    runes_valid text r (maximalRuns_sub _ _ run hrun r hr))

theorem tokenize_flatten (T : UnicodeTables) (text : GoString) :
    (tokenize T text).flatten = encodeRunes ((runes text).filter (isTokenRune T)) := by
  rw [tokenize_eq, map_encodeRunes_flatten, maximalRuns_flatten]

theorem runes_insert (pre post : GoString) (c : Nat) (hc : ValidRune c = true) :
    runes (pre ++ encodeRune c ++ post) = runes pre ++ c :: runes post := by
  rw [List.append_assoc, runes_append pre _ (startsRune_encodeRune c post),
    runes_encodeRune_append c hc post]

/-- A separator in the text separates the tokens on its two sides. -/
theorem tokenize_sep (T : UnicodeTables) (pre post : GoString) (s : Nat)
    (hv : ValidRune s = true) (hs : isTokenRune T s = false) :
    tokenize T (pre ++ encodeRune s ++ post) = tokenize T pre ++ tokenize T post := by
  rw [tokenize_eq, tokenize_eq, tokenize_eq, runes_insert pre post s hv,
    maximalRuns_sep _ _ _ s hs, List.map_append]

/-- The encoding of a non-empty run of letters and numbers is one token. -/
theorem tokenize_run (T : UnicodeTables) (run : List Nat) (hne : run ≠ [])
    (h : ∀ r ∈ run, ValidRune r = true ∧ isTokenRune T r = true) :
    tokenize T (encodeRunes run) = [encodeRunes run] := by
  rw [tokenize_eq, runes_encodeRunes run (fun r hr => (h r hr).1),
    maximalRuns_run _ run hne (fun r hr => (h r hr).2)]
  rfl

/-- Claim C17, as amended: `tokenize` returns exactly the maximal runs of
letter-or-number code points (`unicode.IsLetter` or `unicode.IsNumber`) of
the text, in left-to-right order. Every token is non-empty and consists of
letters and numbers only; the tokens, concatenated, are the text with all
separator code points removed; a separator splits the text into the tokens
before it and the tokens after it, while a non-empty run of letters and numbers
is a single token; and the empty text has no token. -/
theorem tokenize_maximal_runs (T : UnicodeTables) (text : GoString) :
    tokenize T text = (maximalRuns (isTokenRune T) (runes text)).map encodeRunes ∧
    (∀ tok ∈ tokenize T text, tok ≠ [] ∧ ∀ r ∈ runes tok, isTokenRune T r = true) ∧
    (tokenize T text).flatten = encodeRunes ((runes text).filter (isTokenRune T)) ∧
    runes (tokenize T text).flatten = (runes text).filter (isTokenRune T) ∧
    (∀ (pre post : GoString) (s : Nat), text = pre ++ encodeRune s ++ post →
      ValidRune s = true → isTokenRune T s = false →
      tokenize T text = tokenize T pre ++ tokenize T post) ∧
    (∀ run : List Nat, text = encodeRunes run → run ≠ [] →
      (∀ r ∈ run, ValidRune r = true ∧ isTokenRune T r = true) →
      tokenize T text = [text]) ∧
    tokenize T [] = [] := by
  refine ⟨tokenize_eq T text, ?_, tokenize_flatten T text, ?_, ?_, ?_, rfl⟩
  · intro tok htok
    rw [tokenize_eq, List.mem_map] at htok
    obtain ⟨run, hrun, rfl⟩ := htok
    have hm := maximalRuns_mem _ _ run hrun
    refine ⟨fun h => hm.1 ((encodeRunes_eq_nil run).1 h), ?_⟩
    rw [runes_token T text run hrun]
    exact hm.2
  · rw [tokenize_flatten]
    apply runes_encodeRunes
    intro r hr
    exact runes_valid text r (List.mem_filter.1 hr).1
  · intro pre post s ht hv hs
    rw [ht]
    exact tokenize_sep T pre post s hv hs
  · intro run ht hne h
    rw [ht]
    exact tokenize_run T run hne h

/-- Claim C17 fails as stated: the text `a½b` is a single token for every choice of
tables, although `½` (U+00BD, a number of category No) is neither a letter
nor a digit; the tokens are not the runs `a` and `b` of letters and digits. -/
theorem tokenize_number_counterexample :
    (∀ T : UnicodeTables, tokenize T (str "a½b") = [str "a½b"]) ∧
    runes (str "a½b") = [0x61, 0xBD, 0x62] ∧
    (∀ T : UnicodeTables, IsLetter T 0xBD = false) ∧
    (∀ digits : Nat → Bool, IsDigit digits 0xBD = false) := by
  refine ⟨?_, by decide, fun T => rfl, fun D => rfl⟩
  intro T
  have h : tokenize asciiTables (str "a½b") = [str "a½b"] := by decide
  rw [tokenize_latin1 T asciiTables _ (by decide), h]


theorem extractTokens_congr (T : UnicodeTables) (s : simHash) (text1 text2 : GoString)
    (h : (tokenize T text1).map (ToLower T) = (tokenize T text2).map (ToLower T)) :
    extractTokens T s text1 = extractTokens T s text2 := by
  unfold extractTokens
  dsimp only
  rw [foldl_countToken_eq, foldl_countToken_eq, h]

theorem NewSimHash_congr (T : UnicodeTables) (text1 text2 : GoString) (opts : List SimOption)
    (hmode : (applyOptions opts).useNgram = false)
    (h : (tokenize T text1).map (ToLower T) = (tokenize T text2).map (ToLower T)) :
    NewSimHash T text1 opts = NewSimHash T text2 opts := by
  rw [NewSimHash_word T text1 opts hmode, NewSimHash_word T text2 opts hmode,
    extractTokens_congr T _ text1 text2 h]

/-- Claim C12, as amended: punctuation invariance in word mode. Inserting a
separator character, that is a code point that is neither a letter nor a
number, at the start of the text, at its end, or immediately next to an
existing separator leaves the token sequence and hence `NewSimHash` unchanged;
so `hello world` and `hello, world!` have the same fingerprint. -/
theorem separator_insertion (T : UnicodeTables) (pre post : GoString) (c : Nat)
    (hc : ValidRune c = true) (hsep : isTokenRune T c = false)
    (hb : pre = [] ∨ startsRune post = true)
    (hpos : runes pre = [] ∨ runes post = [] ∨
      (∃ xs d, runes pre = xs ++ [d] ∧ isTokenRune T d = false) ∨
      (∃ d ys, runes post = d :: ys ∧ isTokenRune T d = false)) :
    tokenize T (pre ++ encodeRune c ++ post) = tokenize T (pre ++ post) ∧
    (∀ opts : List SimOption, (applyOptions opts).useNgram = false →
      NewSimHash T (pre ++ encodeRune c ++ post) opts = NewSimHash T (pre ++ post) opts) ∧
    (∀ T' : UnicodeTables,
      NewSimHash T' (str "hello, world!") [] = NewSimHash T' (str "hello world") []) := by
  have hr : runes (pre ++ post) = runes pre ++ runes post := by
    rcases hb with hb | hb
    · subst hb; rfl
    · exact runes_append pre post hb
  have ht : tokenize T (pre ++ encodeRune c ++ post) = tokenize T (pre ++ post) := by
    rw [tokenize_sep T pre post c hc hsep, tokenize_eq, tokenize_eq, tokenize_eq,
      hr, maximalRuns_append _ _ _ hpos, List.map_append]
  refine ⟨ht, ?_, ?_⟩
  · intro opts hmode
    exact NewSimHash_congr T _ _ opts hmode (by rw [ht])
  · intro T'
    have h1 : NewSimHash asciiTables (str "hello, world!") [] = some 6719652267731058694 := by
      decide
    have h2 : NewSimHash asciiTables (str "hello world") [] = some 6719652267731058694 := by
      decide
    rw [NewSimHash_ascii T' asciiTables _ _ (by decide), h1,
      NewSimHash_ascii T' asciiTables _ _ (by decide), h2]

/-- Claim C12, an instance of the amended statement: a comma inserted between
`hello` and the space that follows it. -/
theorem separator_insertion_witness :
    ValidRune 0x2C = true ∧ isTokenRune asciiTables 0x2C = false ∧
    startsRune (str " world") = true ∧
    tokenize asciiTables (str "hello" ++ encodeRune 0x2C ++ str " world")
      = tokenize asciiTables (str "hello" ++ str " world") :=
  ⟨by decide, by decide, by decide,
    (separator_insertion asciiTables (str "hello") (str " world") 0x2C (by decide) (by decide)
      (Or.inr (by decide))
      (Or.inr (Or.inr (Or.inr ⟨0x20, runes (str "world"), by decide, by decide⟩)))).1⟩

/-- Claim C12 fails as stated: `½` (U+00BD) is neither a letter nor a digit, but it is
a number, so inserted at the start of `hello world` it joins the first token
and changes the fingerprint. -/
theorem separator_digit_counterexample :
    (∀ T : UnicodeTables, IsLetter T 0xBD = false) ∧
    (∀ digits : Nat → Bool, IsDigit digits 0xBD = false) ∧
    tokenize asciiTables (encodeRune 0xBD ++ str "hello world")
      = [str "½hello", str "world"] ∧
    tokenize asciiTables (str "hello world") = [str "hello", str "world"] ∧
    NewSimHash asciiTables (encodeRune 0xBD ++ str "hello world") []
      = some 4040010562457829632 ∧
    NewSimHash asciiTables (str "hello world") [] = some 6719652267731058694 :=
  ⟨fun _ => rfl, fun _ => rfl, by decide, by decide, by decide, by decide⟩

theorem caseStable_iff (T : UnicodeTables) (text : GoString) :
    caseStable T text = true ↔ ∀ r ∈ runes text,
      isTokenRune T (ToLowerRune T r) = isTokenRune T r ∧
      ToLowerRune T (ToLowerRune T r) = ToLowerRune T r ∧
      ValidRune (ToLowerRune T r) = true := by
  simp [caseStable, List.all_eq_true, and_assoc]

/-- On an ASCII text the lower-case mapping is stable, whatever the tables. -/
theorem stable_ascii_rune (T : UnicodeTables) (r : Nat) (hr : r < 0x80) :
    isTokenRune T (ToLowerRune T r) = isTokenRune T r ∧
    ToLowerRune T (ToLowerRune T r) = ToLowerRune T r ∧
    ValidRune (ToLowerRune T r) = true := by
  have hl : ToLowerRune T r = if 0x41 ≤ r ∧ r ≤ 0x5A then r + 0x20 else r := by
    unfold ToLowerRune
    rw [if_pos (by omega)]
  by_cases hu : 0x41 ≤ r ∧ r ≤ 0x5A
  · rw [hl, if_pos hu]
    refine ⟨?_, ?_, ?_⟩
    · unfold isTokenRune IsLetter IsNumber
      rw [if_pos (by omega), if_pos (by omega), if_pos (by omega), if_pos (by omega)]
      have a1 : decide (0x41 ≤ r) = true := decide_eq_true hu.1
      have a2 : decide (r ≤ 0x5A) = true := decide_eq_true hu.2
      have a3 : decide (0x61 ≤ r + 0x20) = true := decide_eq_true (by omega)
      have a4 : decide (r + 0x20 ≤ 0x7A) = true := decide_eq_true (by omega)
      rw [a1, a2, a3, a4]
      simp
    · unfold ToLowerRune
      rw [if_pos (by omega), if_neg (by omega)]
    · rw [ValidRune_iff]; omega
  · rw [hl, if_neg hu]
    refine ⟨rfl, ?_, ?_⟩
    · rw [hl, if_neg hu]
    · rw [ValidRune_iff]; omega

/-- An ASCII text is case-stable for every choice of tables. -/
theorem caseStable_ascii (T : UnicodeTables) (text : GoString) (h : isASCII text = true) :
    caseStable T text = true := by
  rw [caseStable_iff]
  intro r hr
  rw [runes_ascii text ((isASCII_iff text).1 h)] at hr
  obtain ⟨b, hb, rfl⟩ := List.mem_map.1 hr
  exact stable_ascii_rune T _ ((isASCII_iff text).1 h b hb)

theorem ToLower_eq (T : UnicodeTables) (s : GoString) :
    ToLower T s = encodeRunes ((runes s).map (ToLowerRune T)) := by
  unfold ToLower encodeRunes
  rw [List.flatMap_map]

/-- Lower-casing the text lower-cases its tokens, when the lower-case mapping is
stable on the runes of the text. -/
theorem loweredTokens_ToLower (T : UnicodeTables) (text : GoString)
    (h : caseStable T text = true) :
    (tokenize T (ToLower T text)).map (ToLower T) = (tokenize T text).map (ToLower T) := by
  rw [caseStable_iff] at h
  have hvalid : ∀ r ∈ (runes text).map (ToLowerRune T), ValidRune r = true := by
    intro r hr
    rw [List.mem_map] at hr
    obtain ⟨r0, hr0, rfl⟩ := hr
    exact (h r0 hr0).2.2
  have hrunes : runes (ToLower T text) = (runes text).map (ToLowerRune T) := by
    rw [ToLower_eq, runes_encodeRunes _ hvalid]
  rw [tokenize_eq, tokenize_eq, hrunes,
    maximalRuns_map (ToLowerRune T) _ _ (fun r hr => (h r hr).1), List.map_map, List.map_map,
    List.map_map]
  apply List.map_congr_left
  intro run hrun
  have hsub := maximalRuns_sub _ _ run hrun
  simp only [Function.comp]
  have hv1 : ∀ r ∈ run.map (ToLowerRune T), ValidRune r = true := by
    intro r hr
    rw [List.mem_map] at hr
    obtain ⟨r0, hr0, rfl⟩ := hr
    exact (h r0 (hsub r0 hr0)).2.2
  rw [ToLower_eq, runes_encodeRunes _ hv1, ToLower_eq, runes_token T text run hrun,
    List.map_map]
  congr 1
  apply List.map_congr_left
  intro r hr
  exact (h r (hsub r hr)).2.1

/-- Claim C11: case insensitivity in word mode. With default options a text has the
fingerprint of its lower-cased form, so two texts that differ only in letter
case (their lower-cased forms are equal) have the same fingerprint. The
lower-case mapping is assumed stable on the runes of the texts
(`caseStable`). -/
theorem case_insensitive (T : UnicodeTables) (text1 text2 : GoString)
    (h1 : caseStable T text1 = true) (h2 : caseStable T text2 = true)
    (heq : ToLower T text1 = ToLower T text2) :
    NewSimHash T text1 [] = NewSimHash T (ToLower T text1) [] ∧
    NewSimHash T text1 [] = NewSimHash T text2 [] := by
  have e1 := NewSimHash_congr T _ _ [] rfl (loweredTokens_ToLower T text1 h1)
  have e2 := NewSimHash_congr T _ _ [] rfl (loweredTokens_ToLower T text2 h2)
  refine ⟨e1.symm, ?_⟩
  rw [← e1, ← e2, heq]

/-- Claim C11, an instance: the texts `Hello World` and `hello world`. -/
theorem case_insensitive_witness :
    caseStable asciiTables (str "Hello World") = true ∧
    caseStable asciiTables (str "hello world") = true ∧
    ToLower asciiTables (str "Hello World") = ToLower asciiTables (str "hello world") ∧
    NewSimHash asciiTables (str "Hello World") []
      = NewSimHash asciiTables (str "hello world") [] :=
  ⟨by decide, by decide, by decide,
    (case_insensitive asciiTables (str "Hello World") (str "hello world") (by decide)
      (by decide) (by decide)).2⟩

end Simhash
